import Mathlib

/-!
Verification of the `hst-tw-follow` core of travisbrown/hassreden-tracker.

The development shallowly embeds (in order):
  * the binary delta codec of `src/projects/hst-tw-follow/src/archive.rs`
    (`write_batches`, `FollowReader::next`, `validate_header_lengths`,
    `read_ids`, `is_increasing`, `write_all`);
  * the in-memory graph store of `src/projects/hst-tw-follow/src/store.rs`
    (`State::update`, `State::make_batch`, `State::update_and_write`,
    `Store::check_out`, `Store::archive`);
  * the RocksDB-backed profile-age scheduler of
    `src/projects/hst-tw-follow/src/age.rs` (`ProfileAgeDb::insert`,
    `ProfileAgeDb::finish`, `ProfileAgeDb::get_next`, key/value codecs).

Machine integers are modelled as `Nat`/`Int` with explicit `% 2^w` where the
Rust code truncates (release-mode wrapping semantics).  Timestamps are
modelled at second precision (`DateTime<Utc>` values are only ever stored,
compared and serialized at second precision in this code).  Byte streams are
`List Nat` with each byte taken mod 256 at the point of use.
-/

namespace HST

/-! ### Big-endian byte encodings -/

/-- Models `u32::to_be_bytes`, one `Nat` per byte.  Only the low 32 bits of `n`
contribute, matching Rust's `as u32` truncation. -/

def toBe32 (n : Nat) : List Nat :=
  [n / 16777216 % 256, n / 65536 % 256, n / 256 % 256, n % 256]

/-- Models `u64::to_be_bytes`, one `Nat` per byte. -/

def toBe64 (n : Nat) : List Nat :=
  [n / 72057594037927936 % 256, n / 281474976710656 % 256,
   n / 1099511627776 % 256, n / 4294967296 % 256,
   n / 16777216 % 256, n / 65536 % 256, n / 256 % 256, n % 256]

/-- Models `u32::from_be_bytes` on four bytes (each reduced mod 256, as a `u8` is). -/

def ofBe4 (a b c d : Nat) : Nat :=
  ((a % 256 * 256 + b % 256) * 256 + c % 256) * 256 + d % 256

/-- Models `u64::from_be_bytes` on eight bytes. -/

def ofBe8 (a b c d e f g h : Nat) : Nat :=
  ((((((a % 256 * 256 + b % 256) * 256 + c % 256) * 256 + d % 256) * 256
      + e % 256) * 256 + f % 256) * 256 + g % 256) * 256 + h % 256

/-! ### LEB128 varints (the `integer-encoding` crate's u64 varint format):
least-significant 7-bit group first, high bit of a byte set iff more bytes
follow. -/

def varintEncode (n : Nat) : List Nat :=
  if n < 128 then [n] else (n % 128 + 128) :: varintEncode (n / 128)
decreasing_by exact Nat.div_lt_self (by omega) (by norm_num)

/-- Reads one varint from the head of the stream; `none` models an I/O error
(stream ended mid-varint). -/

def varintDecode : List Nat → Option (Nat × List Nat)
  | [] => none
  | b :: rest =>
    if b % 256 < 128 then some (b % 256, rest)
    else
      match varintDecode rest with
      | none => none
      | some (m, r) => some (m * 128 + (b % 256 - 128), r)

/-! ### Data model (spec §3)

The `Change`/`Batch` struct declarations live in the crate root of the
revision the claims target, which is not included under `src/`; the fields
below are exactly those used by `archive.rs`, `store.rs` and `age.rs`
(`Batch::new(timestamp, user_id, follower_change, followed_change)`), and
match spec §3.  `timestamp` is a `DateTime<Utc>` modelled as signed seconds
since the epoch. -/

structure Change where
  addition_ids : List Nat
  removal_ids : List Nat
deriving DecidableEq

structure Batch where
  timestamp : Int
  user_id : Nat
  follower_change : Option Change
  followed_change : Option Change
deriving DecidableEq

/-! ### The delta codec (`src/projects/hst-tw-follow/src/archive.rs`) -/

/-- Models `MAX_ENTRY_LEN: u32 = u32::MAX / 4` (archive.rs line 10). -/

def MAX_ENTRY_LEN : Nat := 4294967295 / 4

/-- Models `u32::MAX`, the absent-side sentinel. -/

def u32Max : Nat := 4294967295

/-- The delta tail of `write_all`: each value encoded as a varint of its
difference from the previous value (`values.windows(2).map(|pair| pair[1] - pair[0])`). -/

def writeDeltasFrom (prev : Nat) : List Nat → List Nat
  | [] => []
  | v :: rest => varintEncode (v - prev) ++ writeDeltasFrom v rest

/-- Models `write_all` (archive.rs): first value as an absolute varint, then deltas. -/

def write_all (values : List Nat) : List Nat :=
  match values with
  | [] => []
  | v :: rest => varintEncode v ++ writeDeltasFrom v rest

/-- The four length fields written per side by `write_batches`:
`len as u32` for a present side, the `u32::MAX` sentinel twice for `None`. -/

def changeLens : Option Change → List Nat
  | some c => toBe32 c.addition_ids.length ++ toBe32 c.removal_ids.length
  | none => toBe32 u32Max ++ toBe32 u32Max

/-- The payload written per side by `write_batches`. -/

def changePayload : Option Change → List Nat
  | some c => write_all c.addition_ids ++ write_all c.removal_ids
  | none => []

/-- One record as produced by `write_batches` (archive.rs lines 253-305):
4-byte big-endian seconds (`timestamp() as u32`), 8-byte user id, four
4-byte lengths, then payloads.  `write_batch` of `formats/archive.rs` (the
single-record writer `store.rs` uses; its file is not under `src/`) emits
the same record. -/

def encodeBatch (b : Batch) : List Nat :=
  toBe32 (b.timestamp % 4294967296).toNat ++ toBe64 b.user_id
    ++ changeLens b.follower_change ++ changeLens b.followed_change
    ++ changePayload b.follower_change ++ changePayload b.followed_change

/-- Decode errors of `archive::Error`; `ioEof` stands for the `Io` variant
as produced by reading past the end of the stream mid-record. -/

inductive CodecError where
  | invalidHeader (header : List Nat)
  | unsortedIds (ids : List Nat)
  | ioEof
deriving DecidableEq

/-- Models `is_increasing` (archive.rs lines 243-251). -/

def is_increasing : List Nat → Bool
  | a :: b :: rest => decide (a < b) && is_increasing (b :: rest)
  | _ => true

/-- Models `validate_header_lengths` (archive.rs lines 175-215), verbatim:
a side whose two lengths disagree on the sentinel, or a header whose two
sides are both absent, is invalid; a side that is sentinel-absent **or has a
length above `MAX_ENTRY_LEN`** maps to `None`. -/

def validate_header_lengths (fa fr da dr : Nat) :
    Option (Option (Nat × Nat) × Option (Nat × Nat)) :=
  let faE := fa == u32Max
  let frE := fr == u32Max
  let daE := da == u32Max
  let drE := dr == u32Max
  if (faE != frE) || (daE != drE) || (faE && daE) then none
  else
    some
      (if faE || (decide (MAX_ENTRY_LEN < fa) || decide (MAX_ENTRY_LEN < fr)) then none
       else some (fa, fr),
       if daE || (decide (MAX_ENTRY_LEN < da) || decide (MAX_ENTRY_LEN < dr)) then none
       else some (da, dr))

/-- Models `read_ids` (archive.rs lines 231-241): `len` varints accumulated into a
running `u64` sum (wrapping, hence the `% 2^64`).  `none` is an I/O error
(stream ended mid-varint). -/

def read_ids : Nat → Nat → List Nat → Option (List Nat × List Nat)
  | 0, _, s => some ([], s)
  | n + 1, last, s =>
    match varintDecode s with
    | none => none
    | some (d, s') =>
      let v := (last + d) % 18446744073709551616
      match read_ids n v s' with
      | none => none
      | some (ids, s'') => some (v :: ids, s'')

/-- One side of `FollowReader::next`: read both id lists for the side (when
present), then reject either list that is not strictly increasing. -/

def readSide (lens : Option (Nat × Nat)) (s : List Nat) :
    Except CodecError (Option Change × List Nat) :=
  match lens with
  | none => .ok (none, s)
  | some (al, rl) =>
    match read_ids al 0 s with
    | none => .error .ioEof
    | some (adds, s1) =>
      match read_ids rl 0 s1 with
      | none => .error .ioEof
      | some (rems, s2) =>
        if !is_increasing adds then .error (.unsortedIds adds)
        else if !is_increasing rems then .error (.unsortedIds rems)
        else .ok (some ⟨adds, rems⟩, s2)

/-- Models `FollowReader::next` (archive.rs lines 44-97) on a byte stream:
`.ok none` is end of stream.  A stream holding fewer than 28 bytes makes
`read_exact` fail with `UnexpectedEof`, which `read_header` maps to
`Ok(None)` — i.e. a truncated header is treated as end of stream. -/

def decodeBatch (s : List Nat) : Except CodecError (Option (Batch × List Nat)) :=
  match s with
  | t1 :: t2 :: t3 :: t4 :: u1 :: u2 :: u3 :: u4 :: u5 :: u6 :: u7 :: u8 ::
      a1 :: a2 :: a3 :: a4 :: b1 :: b2 :: b3 :: b4 ::
      c1 :: c2 :: c3 :: c4 :: d1 :: d2 :: d3 :: d4 :: rest =>
    match validate_header_lengths (ofBe4 a1 a2 a3 a4) (ofBe4 b1 b2 b3 b4)
        (ofBe4 c1 c2 c3 c4) (ofBe4 d1 d2 d3 d4) with
    | none =>
      .error (.invalidHeader [t1, t2, t3, t4, u1, u2, u3, u4, u5, u6, u7, u8,
        a1, a2, a3, a4, b1, b2, b3, b4, c1, c2, c3, c4, d1, d2, d3, d4])
    | some (fl, dl) =>
      match readSide fl rest with
      | .error e => .error e
      | .ok (fc, s1) =>
        match readSide dl s1 with
        | .error e => .error e
        | .ok (dc, s2) =>
          .ok (some
            ({ timestamp := (ofBe4 t1 t2 t3 t4 : Int)
               user_id := ofBe8 u1 u2 u3 u4 u5 u6 u7 u8
               follower_change := fc
               followed_change := dc }, s2))
  | _ => .ok none

/-! ### Codec round-trip lemmas -/

/-- Helper predicate: `prev ≤` every step along the list. -/

def chainLe (prev : Nat) : List Nat → Bool
  | [] => true
  | v :: rest => decide (prev ≤ v) && chainLe v rest

/-- The list invariants of spec §3 plus the representability bounds imposed
by the binary format (u64 ids, u32 length fields capped at
`MAX_ENTRY_LEN`). -/

def wfChange (c : Change) : Prop :=
  is_increasing c.addition_ids = true ∧ is_increasing c.removal_ids = true ∧
  c.addition_ids.length ≤ MAX_ENTRY_LEN ∧ c.removal_ids.length ≤ MAX_ENTRY_LEN ∧
  (∀ v ∈ c.addition_ids, v < 18446744073709551616) ∧
  (∀ v ∈ c.removal_ids, v < 18446744073709551616)

def wfBatch (b : Batch) : Prop :=
  0 ≤ b.timestamp ∧ b.timestamp < 4294967296 ∧
  b.user_id < 18446744073709551616 ∧
  (∀ c ∈ b.follower_change, wfChange c) ∧ (∀ c ∈ b.followed_change, wfChange c)

/-! ### The graph store (`src/projects/hst-tw-follow/src/store.rs`)

`Store` wraps `State` in a `RwLock`; every operation modelled here runs under
that lock, so the embedding is direct state passing.  `Utc::now()` (always
truncated to seconds on the paths modelled) is an explicit `now` parameter.
The `BufWriter<File>` for `current.bin` is modelled as the list of bytes
appended (`flush` has no observable effect on the byte content). -/

/-- Models `chrono::DateTime::<Utc>::MIN_UTC` at second precision — the sentinel
`last_update` given to users first seen by `check_out`.  Nothing below
depends on the exact numeral, only on it being this distinguished value. -/

def MIN_UTC : Int := -8334632851200

/-- Store errors (`store::Error`); I/O and archive-nesting variants carry the
codec error. -/

inductive StoreError where
  | codec (e : CodecError)
  | duplicateId (target_id source_id : Nat)
  | missingId (target_id source_id : Nat)
  | untrackedId (id : Nat)
  | staleBatch (batch : Batch)
  | pastFileCollision (date : Int)
  | invalidBatch (file_date : Option Int) (batch : Batch)
deriving DecidableEq

/-- Models `HashSet<u64>` modelled as a duplicate-free list (iteration order is
internal: the code only exposes these sets after sorting, and the checked
inserts/removes below maintain the no-duplicate invariant). -/

def sortIds (l : List Nat) : List Nat := List.insertionSort (· ≤ ·) l

/-- Set difference, as `HashSet::difference` collects it. -/

def setDiff (a b : List Nat) : List Nat := a.filter (fun v => decide (v ∉ b))

/-- Models `UserState` (store.rs lines 43-59). -/

structure UserState where
  followers : List Nat
  following : List Nat
  last_update : Int
  expiration : Option Int
deriving DecidableEq

def UserState.new (last_update : Int) : UserState :=
  { followers := [], following := [], last_update := last_update, expiration := none }

/-- Models `State` (store.rs lines 61-64): the user map plus the bytes written to the
current file through the buffered writer. -/

structure StoreState where
  users : Nat → Option UserState
  file : List Nat

def StoreState.empty : StoreState := { users := fun _ => none, file := [] }

def StoreState.setUser (s : StoreState) (id : Nat) (us : UserState) : StoreState :=
  { s with users := fun u => if u = id then some us else s.users u }

/-- Models `last_update.map(|lu| lu != state.last_update).unwrap_or(false)`. -/

def staleCheck (stored : Int) : Option Int → Bool
  | some lu => lu != stored
  | none => false

/-- The insertion loop over `change.addition_ids`: `HashSet::insert` returning
`false` (already present) aborts with `DuplicateId`, leaving the insertions
made so far in place. -/

def insertIds (target_id : Nat) (s : List Nat) : List Nat → List Nat × Option StoreError
  | [] => (s, none)
  | id :: rest =>
    if id ∈ s then (s, some (.duplicateId target_id id))
    else insertIds target_id (id :: s) rest

/-- The removal loop over `change.removal_ids`: `HashSet::remove` returning
`false` (absent) aborts with `MissingId`. -/

def removeIds (target_id : Nat) (s : List Nat) : List Nat → List Nat × Option StoreError
  | [] => (s, none)
  | id :: rest =>
    if id ∈ s then removeIds target_id (s.erase id) rest
    else (s, some (.missingId target_id id))

/-- One `Option<Change>` side of `State::update`: additions first, then
removals, each aborting on the first violation. -/

def applySide (target_id : Nat) (s : List Nat) : Option Change → List Nat × Option StoreError
  | none => (s, none)
  | some change =>
    match insertIds target_id s change.addition_ids with
    | (s1, some e) => (s1, some e)
    | (s1, none) => removeIds target_id s1 change.removal_ids

/-- Models `State::update` (store.rs lines 139-196).  The `entry(..).or_insert_with`
call inserts a fresh `UserState` keyed by the batch's timestamp even on the
error paths; on `DuplicateId`/`MissingId` the mutations made before the
offending id stay in place (the Rust code mutates `user_state` through
`&mut`). -/

def State.update (s : StoreState) (batch : Batch) (last_update : Option Int) :
    StoreState × Option StoreError :=
  let us0 := (s.users batch.user_id).getD (UserState.new batch.timestamp)
  if staleCheck us0.last_update last_update then
    (s.setUser batch.user_id us0, some (.staleBatch batch))
  else
    let us1 := { us0 with last_update := batch.timestamp, expiration := none }
    match applySide batch.user_id us1.followers batch.follower_change with
    | (f1, some e) => (s.setUser batch.user_id { us1 with followers := f1 }, some e)
    | (f1, none) =>
      match applySide batch.user_id us1.following batch.followed_change with
      | (g1, e) => (s.setUser batch.user_id { us1 with followers := f1, following := g1 }, e)

/-- Models `State::write`: append the encoded batch to the current file
(`write_batch` of `formats/archive.rs`, the single-record form of
`write_batches`). -/

def State.write (s : StoreState) (batch : Batch) : StoreState :=
  { s with file := s.file ++ encodeBatch batch }

/-- Models `State::update_and_write` (store.rs lines 132-137): apply first; encode,
append and flush only if application succeeded. -/

def State.update_and_write (s : StoreState) (batch : Batch) (last_update : Int) :
    StoreState × Option StoreError :=
  match State.update s batch (some last_update) with
  | (s1, none) => (State.write s1 batch, none)
  | (s1, some e) => (s1, some e)

/-- Models `State::make_batch` (store.rs lines 76-130): set differences against the
in-memory state (everything is an addition for an unseen user), each list
sorted ascending. -/

def State.make_batch (s : StoreState) (user_id : Nat)
    (follower_ids following_ids : List Nat) (now : Int) : Batch :=
  match s.users user_id with
  | none =>
    { timestamp := now
      user_id := user_id
      follower_change := some ⟨sortIds follower_ids, []⟩
      followed_change := some ⟨sortIds following_ids, []⟩ }
  | some us =>
    { timestamp := now
      user_id := user_id
      follower_change := some ⟨sortIds (setDiff follower_ids us.followers),
        sortIds (setDiff us.followers follower_ids)⟩
      followed_change := some ⟨sortIds (setDiff following_ids us.following),
        sortIds (setDiff us.following following_ids)⟩ }

/-- Models `user_state.expiration.filter(|&expiration| expiration > now).is_some()`:
an unexpired lease exists. -/

def leaseUnexpired (now : Int) : Option Int → Bool
  | some e => now < e
  | none => false

/-- Models `Store::check_out` (store.rs lines 591-614).  A user never seen gets a
fresh entry with `last_update = DateTime::<Utc>::MIN_UTC` (note the
`or_insert_with` keeps that entry even on the `None` return path). -/

def Store.check_out (s : StoreState) (user_id : Nat) (estimated_run_duration now : Int) :
    StoreState × Option Int :=
  let us := (s.users user_id).getD (UserState.new MIN_UTC)
  if leaseUnexpired now us.expiration then
    (s.setUser user_id us, none)
  else
    (s.setUser user_id { us with expiration := some (now + estimated_run_duration) },
      some us.last_update)

/-- Models `Store::user_followers`: the user's follower set, sorted. -/

def Store.user_followers (s : StoreState) (id : Nat) : Option (List Nat) :=
  (s.users id).map (fun us => sortIds us.followers)

/-! ### Archival (`Store::archive`, store.rs lines 499-568)

The on-disk state is the current file's bytes plus one (date, bytes) entry
per archived day under `past/`.  zstd compression is lossless and is applied
on top of the same record stream, so archive files are modelled by their
uncompressed record bytes. -/

/-- Iterating `FollowReader` to the end of a stream.  The fuel starts above
the stream length; since every decoded record consumes at least its 28-byte
header, the fuel bound is never reached. -/

def decodeAllAux : Nat → List Nat → Except CodecError (List Batch)
  | 0, _ => .ok []
  | fuel + 1, s =>
    match decodeBatch s with
    | .error e => .error e
    | .ok none => .ok []
    | .ok (some (b, rest)) =>
      match decodeAllAux fuel rest with
      | .error e => .error e
      | .ok bs => .ok (b :: bs)

def decodeAll (s : List Nat) : Except CodecError (List Batch) :=
  decodeAllAux (s.length + 1) s

/-- Concatenated records, as `write_batches` emits them. -/

def encodeBatches (l : List Batch) : List Nat :=
  (l.map encodeBatch).flatten

/-- Models `batch.timestamp.date_naive()` as days since the epoch (floor division,
matching the calendar-date bucketing for the non-negative timestamps the
codec produces). -/

def batchDate (b : Batch) : Int := b.timestamp.fdiv 86400

/-- The derived lexicographic `Ord` on `Batch` starts with
`(timestamp, user_id)`; the remaining components only order batches that
agree on both, which no property below depends on. -/

def batchLeb (a b : Batch) : Bool :=
  decide (a.timestamp < b.timestamp) ||
    (decide (a.timestamp = b.timestamp) && decide (a.user_id ≤ b.user_id))

/-- Models `batches.sort()`. -/

def sortBatches (l : List Batch) : List Batch :=
  List.insertionSort (fun a b => batchLeb a b = true) l

/-- Ascending deduplicated date list (the sorted iteration order of the
`HashMap<NaiveDate, _>` buckets after `by_path.sort()`). -/

def insertSortedDedup (d : Int) : List Int → List Int
  | [] => [d]
  | x :: xs => if d = x then x :: xs else if d < x then d :: x :: xs else x :: insertSortedDedup d xs

def sortedDates (l : List Int) : List Int := l.foldr insertSortedDedup []

/-- The on-disk layout: `current.bin` plus `past/<date>.bin.zst`. -/

structure Fs where
  current : List Nat
  past : List (Int × List Nat)

/-- Models `path.exists()` for `past/<date>.bin.zst`. -/

def pastHas (past : List (Int × List Nat)) (d : Int) : Bool :=
  past.any (fun p => p.1 == d)

/-- Models `Store::archive`: read the current file; bucket records by calendar date;
if nothing predates `today` return `None`; otherwise fail with
`PastFileCollision` if any target past file already exists (checked in
ascending date order before anything is written), else write one compressed
file per old date (records sorted) and rewrite the current file with today's
records (sorted). -/

def Store.archive (fs : Fs) (today : Int) : Except StoreError (Fs × Option Nat) :=
  match decodeAll fs.current with
  | .error e => .error (.codec e)
  | .ok batches =>
    let current := batches.filter (fun b => batchDate b == today)
    let old := batches.filter (fun b => !(batchDate b == today))
    if old.isEmpty then .ok (fs, none)
    else
      let dates := sortedDates (old.map batchDate)
      match dates.find? (fun d => pastHas fs.past d) with
      | some d => .error (.pastFileCollision d)
      | none =>
        let newPast := fs.past ++ dates.map (fun d =>
          (d, encodeBatches (sortBatches (old.filter (fun b => batchDate b == d)))))
        .ok ({ current := encodeBatches (sortBatches current), past := newPast },
          some old.length)

/-! ### The profile-age scheduler (`src/projects/hst-tw-follow/src/age.rs`)

RocksDB is a byte-sorted key/value store; it is modelled as an association
list kept sorted by lexicographic byte order, with iteration in list order.
Each `ProfileAgeDb` method runs in one transaction; a transaction that
errors is dropped uncommitted, so errors leave the store unchanged (the
callers below thread this explicitly). -/

inductive AgeError where
  | invalidKeyBytes (key : List Nat)
  | invalidValueBytes (value : List Nat)
  | invalidTimestamp (t : Int)
  | invalidDuration (d : Int)
  | unexpectedTag (t : Nat)
deriving DecidableEq

def AGE_TAG : Nat := 0

def ID_TAG : Nat := 1

/-- Models `timestamp_to_u32` (age.rs lines 416-426): `None` encodes as 0, a
timestamp outside u32 range is `InvalidTimestamp`. -/

def timestamp_to_u32 : Option Int → Except AgeError Nat
  | some t => if 0 ≤ t ∧ t < 4294967296 then .ok t.toNat else .error (.invalidTimestamp t)
  | none => .ok 0

/-- Models `timestamp_from_u32`: 0 decodes as `None`. -/

def timestamp_from_u32 (v : Nat) : Option Int :=
  if v = 0 then none else some (v : Int)

/-- Priority key `[tag=0][4-byte next][8-byte id]`. -/

def age_key (next : Option Int) (id : Nat) : Except AgeError (List Nat) := do
  let next_s ← timestamp_to_u32 next
  pure (AGE_TAG :: (toBe32 next_s ++ toBe64 id))

/-- Models `parse_age_key`.  Keys produced by this module are exactly 13 bytes;
a key of any other shape surfaces as `InvalidKeyBytes` (in Rust a too-short
key would panic on slicing — unreachable for keys this module writes). -/

def parse_age_key (key : List Nat) : Except AgeError (Option Int × Nat) :=
  match key with
  | t :: rest =>
    if t ≠ AGE_TAG then .error (.unexpectedTag t)
    else
      match rest with
      | [k1, k2, k3, k4, i1, i2, i3, i4, i5, i6, i7, i8] =>
        .ok (timestamp_from_u32 (ofBe4 k1 k2 k3 k4), ofBe8 i1 i2 i3 i4 i5 i6 i7 i8)
      | _ => .error (.invalidKeyBytes key)
  | [] => .error (.invalidKeyBytes key)

/-- Age value: 4 bytes `last`, plus 4 bytes `started` only when present. -/

def age_value (last started : Option Int) : Except AgeError (List Nat) := do
  let last_s ← timestamp_to_u32 last
  match started with
  | some _ => do
    let started_s ← timestamp_to_u32 started
    pure (toBe32 last_s ++ toBe32 started_s)
  | none => pure (toBe32 last_s)

def parse_age_value (value : List Nat) : Except AgeError (Option Int × Option Int) :=
  match value with
  | [a1, a2, a3, a4] => .ok (timestamp_from_u32 (ofBe4 a1 a2 a3 a4), none)
  | [a1, a2, a3, a4, b1, b2, b3, b4] =>
    .ok (timestamp_from_u32 (ofBe4 a1 a2 a3 a4), timestamp_from_u32 (ofBe4 b1 b2 b3 b4))
  | _ => .error (.invalidValueBytes value)

/-- By-id key `[tag=1][8-byte id]`. -/

def id_key (id : Nat) : List Nat := ID_TAG :: toBe64 id

/-- By-id value `(next, target_age)`; `u32::try_from(num_seconds())` fails
outside u32 range. -/

def id_value (next : Option Int) (target_age : Int) : Except AgeError (List Nat) :=
  if 0 ≤ target_age ∧ target_age < 4294967296 then do
    let next_s ← timestamp_to_u32 next
    pure (toBe32 next_s ++ toBe32 target_age.toNat)
  else .error (.invalidDuration target_age)

def parse_id_value (value : List Nat) : Except AgeError (Option Int × Int) :=
  match value with
  | [a1, a2, a3, a4, b1, b2, b3, b4] =>
    .ok (timestamp_from_u32 (ofBe4 a1 a2 a3 a4), (ofBe4 b1 b2 b3 b4 : Int))
  | _ => .error (.invalidValueBytes value)

/-! A byte-sorted key/value store as a sorted association list. -/

abbrev Db := List (List Nat × List Nat)

/-- Lexicographic byte order on keys (RocksDB's default comparator). -/

def keyLt : List Nat → List Nat → Bool
  | [], [] => false
  | [], _ :: _ => true
  | _ :: _, [] => false
  | a :: ta, b :: tb => if a < b then true else if b < a then false else keyLt ta tb

def dbGet : Db → List Nat → Option (List Nat)
  | [], _ => none
  | (k, v) :: rest, key => if k = key then some v else dbGet rest key

def dbPut : Db → List Nat → List Nat → Db
  | [], k, v => [(k, v)]
  | (k0, v0) :: rest, k, v =>
    if k = k0 then (k, v) :: rest
    else if keyLt k k0 then (k, v) :: (k0, v0) :: rest
    else (k0, v0) :: dbPut rest k v

def dbDelete : Db → List Nat → Db
  | [], _ => []
  | (k0, v0) :: rest, k => if k = k0 then rest else (k0, v0) :: dbDelete rest k

/-- Models `ProfileAgeDb::insert` (age.rs lines 58-82): `next = last.map(|l| l + target_age)`
— urgent (`next = None`) **only** when `last` is `None`; a known id's old
priority record is deleted first. -/

def ProfileAgeDb.insert (db : Db) (id : Nat) (last : Option Int) (target_age : Int) :
    Except AgeError (Db × Bool) := do
  let idKey := id_key id
  let next := last.map (· + target_age)
  match dbGet db idKey with
  | some value => do
    let (current_next, _) ← parse_id_value value
    let oldKey ← age_key current_next id
    let db1 := dbDelete db oldKey
    let k ← age_key next id
    let v ← age_value last none
    let iv ← id_value next target_age
    pure (dbPut (dbPut db1 k v) idKey iv, true)
  | none => do
    let k ← age_key next id
    let v ← age_value last none
    let iv ← id_value next target_age
    pure (dbPut (dbPut db k v) idKey iv, false)

/-- Models `ProfileAgeDb::finish` (age.rs lines 116-144): mark a completed run at
`now`; `next = now + target_age` using the stored target age (or the default
for an unknown id); the new age value has `last = now`, `started = None`. -/

def ProfileAgeDb.finish (db : Db) (id : Nat) (default_target_age : Int) (now : Int) :
    Except AgeError (Db × Bool) := do
  let idKey := id_key id
  match dbGet db idKey with
  | some value => do
    let (current_next, target_age) ← parse_id_value value
    let oldKey ← age_key current_next id
    let db1 := dbDelete db oldKey
    let new_next := now + target_age
    let k ← age_key (some new_next) id
    let v ← age_value (some now) none
    let iv ← id_value (some new_next) target_age
    pure (dbPut (dbPut db1 k v) idKey iv, true)
  | none => do
    let new_next := now + default_target_age
    let k ← age_key (some new_next) id
    let v ← age_value (some now) none
    let iv ← id_value (some new_next) default_target_age
    pure (dbPut (dbPut db k v) idKey iv, false)

/-- The scan phase of `get_next`: iterate age-tagged records in key order,
stop at the tag boundary, skip records whose last snapshot is younger than
`min_age` or whose running lease is younger than `min_running`, keep the
first `count` survivors.  An empty key cannot be written by this module. -/

def scanPairs (now min_age min_running : Int) :
    List (List Nat × List Nat) → Nat → Except AgeError (List (List Nat × Nat × Option Int))
  | _, 0 => .ok []
  | [], _ + 1 => .ok []
  | (k, v) :: rest, count + 1 =>
    match k with
    | [] => .ok []
    | t :: _ =>
      if t ≠ AGE_TAG then .ok []
      else do
        let (_, id) ← parse_age_key k
        let (last, started) ← parse_age_value v
        if (match last with | some l => decide (now - l < min_age) | none => false) then
          scanPairs now min_age min_running rest (count + 1)
        else if (match started with
            | some st => decide (now - st < min_running) | none => false) then
          scanPairs now min_age min_running rest (count + 1)
        else do
          let tail ← scanPairs now min_age min_running rest count
          pure ((k, id, last) :: tail)

/-- The write phase of `get_next`: stamp `started = now` on each taken
record, at its existing key. -/

def putPairs (db : Db) (pairs : List (List Nat × Nat × Option Int)) (now2 : Int) :
    Except AgeError Db :=
  match pairs with
  | [] => .ok db
  | (k, _, last) :: rest => do
    let v ← age_value last (some now2)
    putPairs (dbPut db k v) rest now2

/-- Models `ProfileAgeDb::get_next` (age.rs lines 201-261).  `now` is sampled before
the scan and again (`now2`) before the writes, as in the source. -/

def ProfileAgeDb.get_next (db : Db) (count : Nat) (min_age min_running now now2 : Int) :
    Except AgeError (Db × List Nat) := do
  let pairs ← scanPairs now min_age min_running db count
  let db2 ← putPairs db pairs now2
  pure (db2, pairs.map (fun p => p.2.1))

/-- A `get_next` call's arguments. -/

structure GNCall where
  count : Nat
  min_age : Int
  min_running : Int
  now : Int
  now2 : Int

/-- A sequence of `get_next` transactions; one that errors is dropped
uncommitted and returns no ids. -/

def runGetNexts (db : Db) : List GNCall → Db × List (List Nat)
  | [] => (db, [])
  | c :: cs =>
    match ProfileAgeDb.get_next db c.count c.min_age c.min_running c.now c.now2 with
    | .ok (db1, ids) =>
      let (dbf, rest) := runGetNexts db1 cs
      (dbf, ids :: rest)
    | .error _ => runGetNexts db cs

/-- Store consistency around one id: every age-tagged entry that parses to
`id` is exactly the record `(k, v)` (spec §3: one priority-keyed record per
tracked id, in lock-step with the by-id record). -/

def ageOnlyFor (db : Db) (id : Nat) (k v : List Nat) : Bool :=
  db.all fun kv =>
    match parse_age_key kv.1 with
    | .ok (_, i) => decide (i ≠ id) || (decide (kv.1 = k) && decide (kv.2 = v))
    | .error _ => true

/-- No age-tagged entry of the db parses to `id`. -/

def noAgeFor (db : Db) (id : Nat) : Bool :=
  db.all fun kv =>
    match parse_age_key kv.1 with
    | .ok (_, i) => decide (i ≠ id)
    | .error _ => true



/-! ### Big-endian byte encodings -/

theorem ofBe4_toBe32 (n : Nat) :
    (toBe32 n).length = 4 ∧
      ofBe4 (n / 16777216 % 256) (n / 65536 % 256) (n / 256 % 256) (n % 256)
        = n % 4294967296 := by
  constructor
  · rfl
  · unfold ofBe4
    omega

theorem ofBe4_of_lt (n : Nat) (h : n < 4294967296) :
    ofBe4 (n / 16777216 % 256) (n / 65536 % 256) (n / 256 % 256) (n % 256) = n := by
  have h2 := (ofBe4_toBe32 n).2
  omega

theorem ofBe8_base (b1 b2 b3 b4 c1 c2 c3 c4 hi lo : Nat)
    (h1 : b1 < 256) (h2 : b2 < 256) (h3 : b3 < 256) (h4 : b4 < 256)
    (h5 : c1 < 256) (h6 : c2 < 256) (h7 : c3 < 256) (h8 : c4 < 256)
    (hhi : ((b1 * 256 + b2) * 256 + b3) * 256 + b4 = hi)
    (hlo : ((c1 * 256 + c2) * 256 + c3) * 256 + c4 = lo) :
    ofBe8 b1 b2 b3 b4 c1 c2 c3 c4 = hi * 4294967296 + lo := by
  unfold ofBe8
  rw [Nat.mod_eq_of_lt h1, Nat.mod_eq_of_lt h2, Nat.mod_eq_of_lt h3, Nat.mod_eq_of_lt h4,
    Nat.mod_eq_of_lt h5, Nat.mod_eq_of_lt h6, Nat.mod_eq_of_lt h7, Nat.mod_eq_of_lt h8,
    ← hhi, ← hlo]
  ring

theorem ofBe8_of_lt (n : Nat) (h : n < 18446744073709551616) :
    ofBe8 (n / 72057594037927936 % 256) (n / 281474976710656 % 256)
      (n / 1099511627776 % 256) (n / 4294967296 % 256) (n / 16777216 % 256)
      (n / 65536 % 256) (n / 256 % 256) (n % 256) = n := by
  have e1 : n / 72057594037927936 = n / 4294967296 / 16777216 := by
    rw [Nat.div_div_eq_div_mul]
  have e2 : n / 281474976710656 = n / 4294967296 / 65536 := by
    rw [Nat.div_div_eq_div_mul]
  have e3 : n / 1099511627776 = n / 4294967296 / 256 := by
    rw [Nat.div_div_eq_div_mul]
  have e5 : n / 16777216 % 256 = n % 4294967296 / 16777216 % 256 := by omega
  have e6 : n / 65536 % 256 = n % 4294967296 / 65536 % 256 := by omega
  have e7 : n / 256 % 256 = n % 4294967296 / 256 % 256 := by omega
  have e8 : n % 256 = n % 4294967296 % 256 := by omega
  have hhi : ((n / 4294967296 / 16777216 % 256 * 256 + n / 4294967296 / 65536 % 256) * 256
      + n / 4294967296 / 256 % 256) * 256 + n / 4294967296 % 256 = n / 4294967296 := by
    have hm : n / 4294967296 < 4294967296 := by omega
    omega
  have hlo : ((n % 4294967296 / 16777216 % 256 * 256 + n % 4294967296 / 65536 % 256) * 256
      + n % 4294967296 / 256 % 256) * 256 + n % 4294967296 % 256 = n % 4294967296 := by
    omega
  rw [e1, e2, e3, e5, e6, e7, e8]
  rw [ofBe8_base _ _ _ _ _ _ _ _ _ _
    (Nat.mod_lt _ (by norm_num)) (Nat.mod_lt _ (by norm_num)) (Nat.mod_lt _ (by norm_num))
    (Nat.mod_lt _ (by norm_num)) (Nat.mod_lt _ (by norm_num)) (Nat.mod_lt _ (by norm_num))
    (Nat.mod_lt _ (by norm_num)) (Nat.mod_lt _ (by norm_num)) hhi hlo]
  omega

theorem ofBe4_lt (a b c d : Nat) : ofBe4 a b c d < 4294967296 := by
  unfold ofBe4
  have ha := Nat.mod_lt a (y := 256) (by norm_num)
  have hb := Nat.mod_lt b (y := 256) (by norm_num)
  have hc := Nat.mod_lt c (y := 256) (by norm_num)
  have hd := Nat.mod_lt d (y := 256) (by norm_num)
  omega

/-! ### LEB128 varints (the `integer-encoding` crate's u64 varint format):
least-significant 7-bit group first, high bit of a byte set iff more bytes
follow. -/

set_option maxRecDepth 4000 in

theorem varintDecode_encode (n : Nat) (rest : List Nat) :
    varintDecode (varintEncode n ++ rest) = some (n, rest) := by
  induction n using Nat.strong_induction_on with
  | _ n ih =>
    rw [varintEncode]
    by_cases h : n < 128
    · rw [if_pos h]
      simp only [List.cons_append, List.nil_append, varintDecode]
      rw [if_pos (by omega), Nat.mod_eq_of_lt (by omega)]
      rfl
    · rw [if_neg h]
      simp only [List.cons_append, varintDecode, List.append_eq]
      rw [if_neg (by omega)]
      rw [ih (n / 128) (Nat.div_lt_self (by omega) (by norm_num))]
      have hm : (n % 128 + 128) % 256 = n % 128 + 128 := Nat.mod_eq_of_lt (by omega)
      rw [hm]
      simp only [Option.some.injEq, Prod.mk.injEq]
      exact ⟨by omega, trivial⟩

/-! ### Codec round-trip lemmas -/

theorem chainLe_of_increasing (l : List Nat) (prev : Nat)
    (hhead : ∀ v, l.head? = some v → prev ≤ v)
    (hinc : is_increasing l = true) : chainLe prev l = true := by
  induction l generalizing prev with
  | nil => rfl
  | cons v t ih =>
    simp only [chainLe, Bool.and_eq_true, decide_eq_true_eq]
    refine ⟨hhead v rfl, ih v ?_ ?_⟩
    · intro w hw
      cases t with
      | nil => simp at hw
      | cons w' t' =>
        simp only [List.head?_cons, Option.some.injEq] at hw
        subst hw
        simp only [is_increasing, Bool.and_eq_true, decide_eq_true_eq] at hinc
        exact Nat.le_of_lt hinc.1
    · cases t with
      | nil => rfl
      | cons w' t' =>
        simp only [is_increasing, Bool.and_eq_true, decide_eq_true_eq] at hinc
        exact hinc.2

theorem read_ids_writeDeltasFrom (l : List Nat) (prev : Nat) (rest : List Nat)
    (hch : chainLe prev l = true) (hb : ∀ v ∈ l, v < 18446744073709551616) :
    read_ids l.length prev (writeDeltasFrom prev l ++ rest) = some (l, rest) := by
  induction l generalizing prev with
  | nil => rfl
  | cons v t ih =>
    simp only [chainLe, Bool.and_eq_true, decide_eq_true_eq] at hch
    have h2 : v < 18446744073709551616 := hb v (List.mem_cons_self v t)
    simp only [writeDeltasFrom, List.append_assoc, List.length_cons, read_ids]
    rw [varintDecode_encode]
    have hv : (prev + (v - prev)) % 18446744073709551616 = v := by omega
    simp only [hv]
    rw [ih v hch.2 (fun w hw => hb w (List.mem_cons_of_mem v hw))]

theorem write_all_eq_deltas (l : List Nat) : write_all l = writeDeltasFrom 0 l := by
  cases l with
  | nil => rfl
  | cons v t => simp [write_all, writeDeltasFrom, Nat.sub_zero]

theorem read_ids_write_all (l : List Nat) (rest : List Nat)
    (hinc : is_increasing l = true) (hb : ∀ v ∈ l, v < 18446744073709551616) :
    read_ids l.length 0 (write_all l ++ rest) = some (l, rest) := by
  rw [write_all_eq_deltas]
  exact read_ids_writeDeltasFrom l 0 rest
    (chainLe_of_increasing l 0 (fun v _ => Nat.zero_le v) hinc) hb

theorem readSide_none (s : List Nat) : readSide none s = .ok (none, s) := rfl

theorem readSide_some_encode (c : Change) (tail : List Nat)
    (hia : is_increasing c.addition_ids = true) (hir : is_increasing c.removal_ids = true)
    (hba : ∀ v ∈ c.addition_ids, v < 18446744073709551616)
    (hbr : ∀ v ∈ c.removal_ids, v < 18446744073709551616) :
    readSide (some (c.addition_ids.length, c.removal_ids.length))
      (write_all c.addition_ids ++ (write_all c.removal_ids ++ tail))
      = .ok (some c, tail) := by
  simp only [readSide]
  simp only [read_ids_write_all c.addition_ids _ hia hba,
    read_ids_write_all c.removal_ids tail hir hbr]
  simp only [hia, hir, Bool.not_true, Bool.false_eq_true, if_false]

theorem validate_both_some {al rl dl dr : Nat}
    (h1 : al ≤ MAX_ENTRY_LEN) (h2 : rl ≤ MAX_ENTRY_LEN)
    (h3 : dl ≤ MAX_ENTRY_LEN) (h4 : dr ≤ MAX_ENTRY_LEN) :
    validate_header_lengths al rl dl dr = some (some (al, rl), some (dl, dr)) := by
  have m : MAX_ENTRY_LEN = 1073741823 := rfl
  have e1 : (al == u32Max) = false := by
    simp only [beq_eq_false_iff_ne, ne_eq, u32Max]
    omega
  have e2 : (rl == u32Max) = false := by
    simp only [beq_eq_false_iff_ne, ne_eq, u32Max]
    omega
  have e3 : (dl == u32Max) = false := by
    simp only [beq_eq_false_iff_ne, ne_eq, u32Max]
    omega
  have e4 : (dr == u32Max) = false := by
    simp only [beq_eq_false_iff_ne, ne_eq, u32Max]
    omega
  simp [validate_header_lengths, e1, e2, e3, e4, decide_eq_false (Nat.not_lt.2 h1),
    decide_eq_false (Nat.not_lt.2 h2), decide_eq_false (Nat.not_lt.2 h3),
    decide_eq_false (Nat.not_lt.2 h4)]

theorem validate_some_none {al rl : Nat}
    (h1 : al ≤ MAX_ENTRY_LEN) (h2 : rl ≤ MAX_ENTRY_LEN) :
    validate_header_lengths al rl u32Max u32Max = some (some (al, rl), none) := by
  have m : MAX_ENTRY_LEN = 1073741823 := rfl
  have e1 : (al == u32Max) = false := by
    simp only [beq_eq_false_iff_ne, ne_eq, u32Max]
    omega
  have e2 : (rl == u32Max) = false := by
    simp only [beq_eq_false_iff_ne, ne_eq, u32Max]
    omega
  simp [validate_header_lengths, e1, e2, decide_eq_false (Nat.not_lt.2 h1),
    decide_eq_false (Nat.not_lt.2 h2)]

theorem validate_none_some {dl dr : Nat}
    (h3 : dl ≤ MAX_ENTRY_LEN) (h4 : dr ≤ MAX_ENTRY_LEN) :
    validate_header_lengths u32Max u32Max dl dr = some (none, some (dl, dr)) := by
  have m : MAX_ENTRY_LEN = 1073741823 := rfl
  have e3 : (dl == u32Max) = false := by
    simp only [beq_eq_false_iff_ne, ne_eq, u32Max]
    omega
  have e4 : (dr == u32Max) = false := by
    simp only [beq_eq_false_iff_ne, ne_eq, u32Max]
    omega
  simp [validate_header_lengths, e3, e4, decide_eq_false (Nat.not_lt.2 h3),
    decide_eq_false (Nat.not_lt.2 h4)]

theorem emod_toNat_cast (ts : Int) (h0 : 0 ≤ ts) (h1 : ts < 4294967296) :
    (((ts % 4294967296).toNat : Int)) = ts := by
  omega

theorem emod_toNat_lt (ts : Int) : (ts % 4294967296).toNat < 4294967296 := by
  omega

/-- Shared round-trip core: decoding an encoded batch (with anything
appended) succeeds and returns the batch, provided the batch is within the
format's bounds and at least one side is present. -/

theorem decodeBatch_encodeBatch (b : Batch) (rest : List Nat) (hwf : wfBatch b)
    (hside : b.follower_change.isSome ∨ b.followed_change.isSome) :
    decodeBatch (encodeBatch b ++ rest) = .ok (some (b, rest)) := by
  obtain ⟨ts, uid, fc, dc⟩ := b
  obtain ⟨hts0, hts1, huid, hfc, hdc⟩ := hwf
  simp only at hts0 hts1 huid hfc hdc
  have hM : MAX_ENTRY_LEN = 1073741823 := rfl
  have hts := emod_toNat_cast ts hts0 hts1
  have htlt := emod_toNat_lt ts
  have hv : ofBe4 (u32Max / 16777216 % 256) (u32Max / 65536 % 256)
      (u32Max / 256 % 256) (u32Max % 256) = u32Max :=
    ofBe4_of_lt u32Max (by unfold u32Max; norm_num)
  cases fc with
  | none =>
    cases dc with
    | none => simp at hside
    | some c' =>
      have hc' := hdc c' rfl
      obtain ⟨hia', hir', hla', hlr', hba', hbr'⟩ := hc'
      simp only [encodeBatch, changeLens, changePayload, toBe32, toBe64,
        List.append_assoc, List.cons_append, List.nil_append]
      simp only [decodeBatch]
      rw [ofBe4_of_lt _ htlt, ofBe8_of_lt _ huid,
        ofBe4_of_lt _ (by omega : c'.addition_ids.length < 4294967296),
        ofBe4_of_lt _ (by omega : c'.removal_ids.length < 4294967296)]
      rw [hv, validate_none_some hla' hlr']
      simp only [readSide_none, readSide_some_encode c' rest hia' hir' hba' hbr', hts]
  | some c =>
    have hc := hfc c rfl
    obtain ⟨hia, hir, hla, hlr, hba, hbr⟩ := hc
    cases dc with
    | none =>
      simp only [encodeBatch, changeLens, changePayload, toBe32, toBe64,
        List.append_assoc, List.cons_append, List.nil_append, List.append_nil]
      simp only [decodeBatch]
      rw [ofBe4_of_lt _ htlt, ofBe8_of_lt _ huid,
        ofBe4_of_lt _ (by omega : c.addition_ids.length < 4294967296),
        ofBe4_of_lt _ (by omega : c.removal_ids.length < 4294967296)]
      rw [hv, validate_some_none hla hlr]
      simp only [readSide_some_encode c rest hia hir hba hbr, readSide_none, hts]
    | some c' =>
      have hc' := hdc c' rfl
      obtain ⟨hia', hir', hla', hlr', hba', hbr'⟩ := hc'
      simp only [encodeBatch, changeLens, changePayload, toBe32, toBe64,
        List.append_assoc, List.cons_append, List.nil_append]
      simp only [decodeBatch]
      rw [ofBe4_of_lt _ htlt, ofBe8_of_lt _ huid,
        ofBe4_of_lt _ (by omega : c.addition_ids.length < 4294967296),
        ofBe4_of_lt _ (by omega : c.removal_ids.length < 4294967296),
        ofBe4_of_lt _ (by omega : c'.addition_ids.length < 4294967296),
        ofBe4_of_lt _ (by omega : c'.removal_ids.length < 4294967296),
        validate_both_some hla hlr hla' hlr']
      simp only [readSide_some_encode c _ hia hir hba hbr,
        readSide_some_encode c' rest hia' hir' hba' hbr', hts]

/-! ### Claim C1: encode/decode round-trip -/

/-- Claim C1, counterexample.  The batch `{timestamp: 1000, user_id: 7, follower_change:
None, followed_change: None}` satisfies every list invariant (it has no lists), yet
decoding its encoding fails with `InvalidHeader`: `validate_header_lengths` rejects a
header whose two sides are both the absent sentinel
(`follower_addition_empty && followed_addition_empty`). -/

theorem decode_encode_both_none_counterexample :
    wfBatch ⟨1000, 7, none, none⟩ ∧
      decodeBatch (encodeBatch ⟨1000, 7, none, none⟩) =
        .error (.invalidHeader (encodeBatch ⟨1000, 7, none, none⟩)) := by
  constructor
  · refine ⟨by norm_num, by norm_num, by norm_num, ?_, ?_⟩ <;>
      intro c hc <;> simp at hc
  · rfl

/-- Claim C1, amended.  For every Batch satisfying the list invariants (strictly
increasing, disjoint, u64-representable ids), with lengths within the format's
`MAX_ENTRY_LEN` cap, timestamp representable as u32 seconds, and **at least one
side observed** (`Some`), decoding the encoding succeeds and returns the batch
unchanged — timestamp, user id and both `Option Change` sides preserved,
including `Some` of an empty `Change`. -/

theorem decode_encode_roundtrip (b : Batch) (rest : List Nat) (hwf : wfBatch b)
    (_hdisj : ∀ c, (c ∈ b.follower_change ∨ c ∈ b.followed_change) →
      ∀ v ∈ c.addition_ids, v ∉ c.removal_ids)
    (hside : b.follower_change.isSome ∨ b.followed_change.isSome) :
    decodeBatch (encodeBatch b ++ rest) = .ok (some (b, rest)) :=
  decodeBatch_encodeBatch b rest hwf hside

/-- Witness for `decode_encode_roundtrip`: a concrete batch with one observed,
empty-removal side and one unobserved side round-trips. -/

theorem decode_encode_roundtrip_witness :
    decodeBatch (encodeBatch ⟨1000, 7, some ⟨[1, 2, 3], []⟩, none⟩ ++ []) =
      .ok (some (⟨1000, 7, some ⟨[1, 2, 3], []⟩, none⟩, [])) := by
  apply decode_encode_roundtrip
  · refine ⟨by norm_num, by norm_num, by norm_num, ?_, ?_⟩ <;>
      intro c hc <;> simp at hc
    subst hc
    refine ⟨rfl, rfl, by norm_num [MAX_ENTRY_LEN], by norm_num [MAX_ENTRY_LEN], ?_, ?_⟩ <;>
      simp
  · intro c hc
    rcases hc with hc | hc <;> simp at hc
    subst hc
    simp
  · exact Or.inl rfl

/-! ### Claim C3: oversized header lengths -/

/-- Helper: `validate_header_lengths` on a follower side whose addition length
exceeds `MAX_ENTRY_LEN` (but is not the sentinel) and a sentinel-absent
followed side accepts the header and maps the oversized side to `None`. -/

theorem validate_oversize_left {al rl : Nat} (h : MAX_ENTRY_LEN < al)
    (h1 : al < u32Max) (h2 : rl < u32Max) :
    validate_header_lengths al rl u32Max u32Max = some (none, none) := by
  have e1 : (al == u32Max) = false := by
    simp only [beq_eq_false_iff_ne, ne_eq]
    omega
  have e2 : (rl == u32Max) = false := by
    simp only [beq_eq_false_iff_ne, ne_eq]
    omega
  simp [validate_header_lengths, e1, e2, decide_eq_true h]

/-- Claim C3, counterexample.  A 28-byte stream whose header declares a follower
addition length of `2^30 = MAX_ENTRY_LEN + 1` (not the `0xFFFFFFFF` sentinel)
decodes **successfully**, producing a batch with that side treated as absent —
decode does not fail with a structural error as the claim states. -/

theorem decode_oversize_length_counterexample :
    decodeBatch (toBe32 1000 ++ toBe64 7 ++ toBe32 1073741824 ++ toBe32 0
        ++ toBe32 4294967295 ++ toBe32 4294967295)
      = .ok (some (⟨1000, 7, none, none⟩, [])) := by rfl

/-- Claim C3, amended.  For every record header declaring a (non-sentinel) list
length above the `MAX_ENTRY_LEN` ceiling, decode does **not** fail for that
reason: the whole side is silently decoded as absent (`None`) and decoding
proceeds (here shown with the other side marked absent by the sentinel, so the
record ends with its header). -/

theorem decode_oversize_length_side_absent (ts uid al rl : Nat) (rest : List Nat)
    (hts : ts < 4294967296) (huid : uid < 18446744073709551616)
    (hal : MAX_ENTRY_LEN < al) (hal1 : al < u32Max) (hrl : rl < u32Max) :
    decodeBatch (toBe32 ts ++ toBe64 uid ++ toBe32 al ++ toBe32 rl
        ++ toBe32 u32Max ++ toBe32 u32Max ++ rest)
      = .ok (some (⟨(ts : Int), uid, none, none⟩, rest)) := by
  have hu : u32Max = 4294967295 := rfl
  simp only [toBe32, toBe64, List.append_assoc, List.cons_append, List.nil_append]
  simp only [decodeBatch]
  rw [ofBe4_of_lt _ hts, ofBe8_of_lt _ huid,
    ofBe4_of_lt _ (by omega : al < 4294967296),
    ofBe4_of_lt _ (by omega : rl < 4294967296),
    ofBe4_of_lt _ (by omega : u32Max < 4294967296),
    validate_oversize_left hal hal1 hrl]
  simp only [readSide_none]

/-- Witness for `decode_oversize_length_side_absent` at a concrete header. -/

theorem decode_oversize_length_side_absent_witness :
    decodeBatch (toBe32 20 ++ toBe64 9 ++ toBe32 2000000000 ++ toBe32 5
        ++ toBe32 u32Max ++ toBe32 u32Max ++ [99])
      = .ok (some (⟨(20 : Int), 9, none, none⟩, [99])) :=
  decode_oversize_length_side_absent 20 9 2000000000 5 [99] (by norm_num) (by norm_num)
    (by norm_num [MAX_ENTRY_LEN]) (by norm_num [u32Max]) (by norm_num [u32Max])

/-! ### Claim C10: check-out of a never-seen user -/

/-- Claim C10.  `check_out` on a user with no state entry succeeds: it creates
the entry (empty follower/following sets), returns `Some` of the
`DateTime::<Utc>::MIN_UTC` sentinel as the prior `last_update`, and records a
lease expiring at `now + estimated_run_duration`. -/

theorem check_out_unknown_user (s : StoreState) (user_id : Nat) (dur now : Int)
    (h : s.users user_id = none) :
    Store.check_out s user_id dur now =
      (s.setUser user_id
        { followers := [], following := [], last_update := MIN_UTC,
          expiration := some (now + dur) },
        some MIN_UTC) := by
  unfold Store.check_out
  rw [h]
  rfl

/-- Witness for `check_out_unknown_user` on the empty store. -/

theorem check_out_unknown_user_witness :
    Store.check_out StoreState.empty 7 600 1000 =
      (StoreState.empty.setUser 7
        { followers := [], following := [], last_update := MIN_UTC,
          expiration := some 1600 },
        some MIN_UTC) := by
  have h := check_out_unknown_user StoreState.empty 7 600 1000 rfl
  norm_num at h
  exact h

/-! ### Claim C4: check-out leasing -/

/-- Claim C4.  (a) With no unexpired lease, `check_out` sets
`expiration = now + duration` and returns `Some` of the prior `last_update`;
(b) with an unexpired lease it returns `None`; (c) hence of two consecutive
`check_out` calls on the same id with no release in between, where the
second call happens before the lease granted to the first expires, the
second returns `None` (at most one of the two returns `Some`). -/

theorem check_out_lease_exclusive (s : StoreState) (user_id : Nat)
    (dur now dur2 now2 : Int) :
    (∀ us, s.users user_id = some us → leaseUnexpired now us.expiration = false →
      Store.check_out s user_id dur now =
        (s.setUser user_id { us with expiration := some (now + dur) },
          some us.last_update)) ∧
    (∀ us, s.users user_id = some us → leaseUnexpired now us.expiration = true →
      Store.check_out s user_id dur now = (s.setUser user_id us, none)) ∧
    (∀ lu, (Store.check_out s user_id dur now).2 = some lu → now2 < now + dur →
      (Store.check_out (Store.check_out s user_id dur now).1 user_id dur2 now2).2
        = none) := by
  refine ⟨?_, ?_, ?_⟩
  · intro us hus hfree
    unfold Store.check_out
    rw [hus]
    simp [hfree]
  · intro us hus hbusy
    unfold Store.check_out
    rw [hus]
    simp [hbusy]
  · intro lu hgrant hearly
    unfold Store.check_out at hgrant ⊢
    by_cases hb : leaseUnexpired now ((s.users user_id).getD (UserState.new MIN_UTC)).expiration
    · simp [hb] at hgrant
    · simp only [hb, Bool.false_eq_true, if_false] at hgrant ⊢
      simp [StoreState.setUser, leaseUnexpired, hearly]

/-- Witness for `check_out_lease_exclusive`: on the empty store a first
check-out at time 1000 for 600 seconds is granted, and a second at time 1300
is refused. -/

theorem check_out_lease_exclusive_witness :
    (Store.check_out
      (Store.check_out StoreState.empty 7 600 1000).1 7 600 1300).2 = none := by
  have h := (check_out_lease_exclusive StoreState.empty 7 600 1000 600 1300).2.2
  apply h MIN_UTC
  · rfl
  · norm_num

/-! ### Claim C7: the stale-batch compare-and-swap -/

theorem insertIds_error_shape (tid : Nat) (s : List Nat) (l : List Nat)
    (s' : List Nat) (e : StoreError) (h : insertIds tid s l = (s', some e)) :
    ∃ src, e = .duplicateId tid src := by
  induction l generalizing s with
  | nil => simp [insertIds] at h
  | cons a t ih =>
    unfold insertIds at h
    split at h
    · simp only [Prod.mk.injEq, Option.some.injEq] at h
      exact ⟨a, h.2.symm⟩
    · exact ih _ h

theorem removeIds_error_shape (tid : Nat) (s : List Nat) (l : List Nat)
    (s' : List Nat) (e : StoreError) (h : removeIds tid s l = (s', some e)) :
    ∃ src, e = .missingId tid src := by
  induction l generalizing s with
  | nil => simp [removeIds] at h
  | cons a t ih =>
    unfold removeIds at h
    split at h
    · exact ih _ h
    · simp only [Prod.mk.injEq, Option.some.injEq] at h
      exact ⟨a, h.2.symm⟩

theorem applySide_error_shape (tid : Nat) (fs : List Nat) (oc : Option Change)
    (f : List Nat) (e : StoreError) (h : applySide tid fs oc = (f, some e)) :
    (∃ src, e = .duplicateId tid src) ∨ ∃ src, e = .missingId tid src := by
  cases oc with
  | none => simp [applySide] at h
  | some c =>
    simp only [applySide] at h
    rcases h1 : insertIds tid fs c.addition_ids with ⟨s1, e1⟩
    rw [h1] at h
    cases e1 with
    | some e1 =>
      simp only [Prod.mk.injEq, Option.some.injEq] at h
      exact Or.inl (h.2 ▸ insertIds_error_shape tid fs _ _ _ h1)
    | none => exact Or.inr (removeIds_error_shape tid s1 _ _ _ h)

/-- Claim C7.  For a user with in-memory state, `update_and_write` fails with
`StaleBatch` (appending nothing) when the stored `last_update` differs from
the expected value passed through from check-out; when it matches, the
result is never `StaleBatch`, and if the batch's changes apply cleanly the
new state is installed and the encoded batch is appended to the current
file. -/

theorem update_and_write_stale_check (s : StoreState) (batch : Batch) (expected : Int)
    (us : UserState) (hu : s.users batch.user_id = some us) :
    (us.last_update ≠ expected →
      State.update_and_write s batch expected =
        (s.setUser batch.user_id us, some (.staleBatch batch))) ∧
    (us.last_update = expected →
      (State.update_and_write s batch expected).2 ≠ some (.staleBatch batch) ∧
      (∀ f1 g1, applySide batch.user_id us.followers batch.follower_change = (f1, none) →
        applySide batch.user_id us.following batch.followed_change = (g1, none) →
        State.update_and_write s batch expected =
          (State.write
            (s.setUser batch.user_id
              { followers := f1, following := g1, last_update := batch.timestamp,
                expiration := none })
            batch, none))) := by
  constructor
  · intro hne
    unfold State.update_and_write State.update
    rw [hu]
    simp only [Option.getD_some, staleCheck]
    rw [if_pos (by simp only [bne_iff_ne, ne_eq]; exact fun hc => hne hc.symm)]
  · intro heq
    have hnotstale : ¬staleCheck us.last_update (some expected) = true := by
      simp [staleCheck, heq]
    constructor
    · unfold State.update_and_write State.update
      rw [hu]
      simp only [Option.getD_some]
      rw [if_neg hnotstale]
      rcases h1 : applySide batch.user_id us.followers batch.follower_change with ⟨f1, e1⟩
      cases e1 with
      | some e =>
        simp only [ne_eq, Prod.mk.injEq, Option.some.injEq]
        intro hc
        rcases applySide_error_shape _ _ _ _ _ h1 with ⟨src, he⟩ | ⟨src, he⟩ <;>
          simp [he] at hc
      | none =>
        rcases h2 : applySide batch.user_id us.following batch.followed_change with ⟨g1, e2⟩
        cases e2 with
        | some e =>
          simp only [ne_eq, Prod.mk.injEq, Option.some.injEq]
          intro hc
          rcases applySide_error_shape _ _ _ _ _ h2 with ⟨src, he⟩ | ⟨src, he⟩ <;>
            simp [he] at hc
        | none => simp
    · intro f1 g1 h1 h2
      unfold State.update_and_write State.update
      rw [hu]
      simp only [Option.getD_some]
      rw [if_neg hnotstale]
      simp only [h1, h2]

/-- Witness for `update_and_write_stale_check`: with stored
`last_update = 5` and expected value 4, the write fails stale; with expected
value 5 and a cleanly applying batch, it is appended. -/

theorem update_and_write_stale_check_witness :
    (State.update_and_write (StoreState.empty.setUser 7 ⟨[], [], 5, none⟩)
        ⟨6, 7, some ⟨[1], []⟩, none⟩ 4).2 = some (.staleBatch ⟨6, 7, some ⟨[1], []⟩, none⟩) ∧
    (State.update_and_write (StoreState.empty.setUser 7 ⟨[], [], 5, none⟩)
        ⟨6, 7, some ⟨[1], []⟩, none⟩ 5).1.file = encodeBatch ⟨6, 7, some ⟨[1], []⟩, none⟩ := by
  constructor
  · have h := (update_and_write_stale_check (StoreState.empty.setUser 7 ⟨[], [], 5, none⟩)
      ⟨6, 7, some ⟨[1], []⟩, none⟩ 4 ⟨[], [], 5, none⟩ rfl).1 (by norm_num)
    rw [h]
  · have h := ((update_and_write_stale_check (StoreState.empty.setUser 7 ⟨[], [], 5, none⟩)
      ⟨6, 7, some ⟨[1], []⟩, none⟩ 5 ⟨[], [], 5, none⟩ rfl).2 rfl).2 [1] [] (by decide) (by decide)
    rw [h]
    rfl

/-! ### Claim C9: write-ahead discipline of `update_and_write` -/

theorem update_file_eq (s : StoreState) (b : Batch) (lu : Option Int) :
    (State.update s b lu).1.file = s.file := by
  unfold State.update
  dsimp only
  split
  · rfl
  · split
    · rfl
    · rfl

/-- Claim C9.  If `update_and_write` returns an error (stale, duplicate or
missing id), no bytes are appended to the current file during that call —
the encoded batch is appended only after the in-memory application fully
succeeded — although on `DuplicateId`/`MissingId` the in-memory sets may be
left with a prefix of the batch's changes applied (witnessed by the concrete
store in the last two conjuncts, where the failing batch leaves follower 1
inserted and `last_update` advanced). -/

theorem update_and_write_error_no_append (s : StoreState) (batch : Batch) (expected : Int) :
    ((∀ e, (State.update_and_write s batch expected).2 = some e →
        (State.update_and_write s batch expected).1.file = s.file) ∧
      ((State.update_and_write s batch expected).2 = none →
        (State.update_and_write s batch expected).1.file = s.file ++ encodeBatch batch)) ∧
    ((State.update_and_write (StoreState.empty.setUser 7 ⟨[2], [], 5, none⟩)
        ⟨6, 7, some ⟨[1, 2], []⟩, none⟩ 5).2 = some (.duplicateId 7 2) ∧
      (State.update_and_write (StoreState.empty.setUser 7 ⟨[2], [], 5, none⟩)
        ⟨6, 7, some ⟨[1, 2], []⟩, none⟩ 5).1.users 7 = some ⟨[1, 2], [], 6, none⟩) := by
  refine ⟨⟨?_, ?_⟩, by decide, by decide⟩
  · intro e he
    have hf := update_file_eq s batch (some expected)
    unfold State.update_and_write at he ⊢
    rcases h : State.update s batch (some expected) with ⟨s1, e1⟩
    rw [h] at he hf
    simp only at hf
    cases e1 with
    | some e1 => simpa using hf
    | none => simp at he
  · intro he
    have hf := update_file_eq s batch (some expected)
    unfold State.update_and_write at he ⊢
    rcases h : State.update s batch (some expected) with ⟨s1, e1⟩
    rw [h] at he hf
    simp only at hf
    cases e1 with
    | some e1 => simp at he
    | none => simp [State.write, hf]

/-- Witness for `update_and_write_error_no_append` (its universal halves, at
the same concrete store as its embedded example): the failing call leaves
the file bytes untouched. -/

theorem update_and_write_error_no_append_witness :
    (State.update_and_write (StoreState.empty.setUser 7 ⟨[2], [], 5, none⟩)
      ⟨6, 7, some ⟨[1, 2], []⟩, none⟩ 5).1.file = [] := by
  have h := ((update_and_write_error_no_append
    (StoreState.empty.setUser 7 ⟨[2], [], 5, none⟩)
    ⟨6, 7, some ⟨[1, 2], []⟩, none⟩ 5).1).1 (.duplicateId 7 2) (by decide)
  exact h

/-! ### Claim C8: the worked follower-delta scenario -/

/-- Claim C8.  Batch A `{timestamp: 1000, user_id: 7, follower_change:
Some({add:[1,2,3], remove:[]}), followed_change: None}` applied to the empty
state yields followers(7) = {1,2,3}; batch B `{timestamp: 2000, user_id: 7,
follower_change: Some({add:[4], remove:[2]}), followed_change: None}` then
yields followers(7) = {1,3,4}; and `make_batch(7, {1,3,4}, {})` against that
state emits empty changes (no additions, no removals on either side). -/

theorem follower_delta_example_scenario :
    (State.update StoreState.empty ⟨1000, 7, some ⟨[1, 2, 3], []⟩, none⟩ none).2 = none ∧
    Store.user_followers
      (State.update StoreState.empty ⟨1000, 7, some ⟨[1, 2, 3], []⟩, none⟩ none).1 7
      = some [1, 2, 3] ∧
    (State.update
      (State.update StoreState.empty ⟨1000, 7, some ⟨[1, 2, 3], []⟩, none⟩ none).1
      ⟨2000, 7, some ⟨[4], [2]⟩, none⟩ none).2 = none ∧
    Store.user_followers
      (State.update
        (State.update StoreState.empty ⟨1000, 7, some ⟨[1, 2, 3], []⟩, none⟩ none).1
        ⟨2000, 7, some ⟨[4], [2]⟩, none⟩ none).1 7
      = some [1, 3, 4] ∧
    State.make_batch
      (State.update
        (State.update StoreState.empty ⟨1000, 7, some ⟨[1, 2, 3], []⟩, none⟩ none).1
        ⟨2000, 7, some ⟨[4], [2]⟩, none⟩ none).1
      7 [1, 3, 4] [] 3000 = ⟨3000, 7, some ⟨[], []⟩, some ⟨[], []⟩⟩ := by
  refine ⟨by decide, by decide, by decide, by decide, by decide⟩

/-! ### Claim C2: `insert_or_update` scheduling -/

theorem except_bind_ok {ε α β : Type} (a : α) (f : α → Except ε β) :
    ((Except.ok a : Except ε α) >>= f) = f a := rfl

/-- Claim C2, counterexample.  Inserting an id **unknown** to the store with
`last_observed = Some 100` and `target_age = 50` creates the priority record
keyed by `next_due = 150 = last_observed + target_age` — the record keyed by
the urgent sentinel (`next_due = None`, encoded 0) does not exist.  The code
computes `next = last.map(|l| l + target_age)` before the known/unknown
split, so an unknown id is urgent only when `last_observed` is `None`. -/

theorem insert_unknown_not_urgent_counterexample :
    ProfileAgeDb.insert [] 1 (some 100) 50 =
      .ok ([(AGE_TAG :: (toBe32 150 ++ toBe64 1), toBe32 100),
            (ID_TAG :: toBe64 1, toBe32 150 ++ toBe32 50)], false) ∧
    dbGet [(AGE_TAG :: (toBe32 150 ++ toBe64 1), toBe32 100),
           (ID_TAG :: toBe64 1, toBe32 150 ++ toBe32 50)]
      (AGE_TAG :: (toBe32 0 ++ toBe64 1)) = none := by
  constructor <;> rfl

/-- Claim C2, amended.  `insert(id, last_observed, target_age)` writes, for an
unknown id, both records keyed/valued from
`next_due = last_observed.map (· + target_age)` — so `next_due = None`
(urgent) exactly when `last_observed = None` — and for a known id deletes
the old priority record (at the key recorded in the by-id record) and writes
the new pair derived the same way, returning whether a record was
replaced. -/

theorem insert_next_due (db : Db) (id : Nat) (last : Option Int) (ta : Int)
    (k v iv : List Nat)
    (hk : age_key (last.map (· + ta)) id = .ok k)
    (hv : age_value last none = .ok v)
    (hiv : id_value (last.map (· + ta)) ta = .ok iv) :
    (dbGet db (id_key id) = none →
      ProfileAgeDb.insert db id last ta =
        .ok (dbPut (dbPut db k v) (id_key id) iv, false)) ∧
    (∀ value curNext ta0 oldKey,
      dbGet db (id_key id) = some value →
      parse_id_value value = .ok (curNext, ta0) →
      age_key curNext id = .ok oldKey →
      ProfileAgeDb.insert db id last ta =
        .ok (dbPut (dbPut (dbDelete db oldKey) k v) (id_key id) iv, true)) := by
  constructor
  · intro hnone
    simp only [ProfileAgeDb.insert, hnone, hk, hv, hiv, except_bind_ok]
    rfl
  · intro value curNext ta0 oldKey hsome hpv hok
    simp only [ProfileAgeDb.insert, hsome, hpv, hok, hk, hv, hiv, except_bind_ok]
    rfl

/-- Witness for `insert_next_due` at the unknown id 2, `last = Some 200`,
`target_age = 100`: the priority key encodes `next_due = 300`. -/

theorem insert_next_due_witness :
    ProfileAgeDb.insert [] 2 (some 200) 100 =
      .ok (dbPut (dbPut [] (AGE_TAG :: (toBe32 300 ++ toBe64 2)) (toBe32 200))
        (id_key 2) (toBe32 300 ++ toBe32 100), false) :=
  (insert_next_due [] 2 (some 200) 100
    (AGE_TAG :: (toBe32 300 ++ toBe64 2)) (toBe32 200) (toBe32 300 ++ toBe32 100)
    rfl rfl rfl).1 rfl

/-! ### Claim C5: archival idempotence -/

theorem ofBe8_lt (a b c d e f g h : Nat) :
    ofBe8 a b c d e f g h < 18446744073709551616 := by
  unfold ofBe8
  have h1 := Nat.mod_lt a (y := 256) (by norm_num)
  have h2 := Nat.mod_lt b (y := 256) (by norm_num)
  have h3 := Nat.mod_lt c (y := 256) (by norm_num)
  have h4 := Nat.mod_lt d (y := 256) (by norm_num)
  have h5 := Nat.mod_lt e (y := 256) (by norm_num)
  have h6 := Nat.mod_lt f (y := 256) (by norm_num)
  have h7 := Nat.mod_lt g (y := 256) (by norm_num)
  have h8 := Nat.mod_lt h (y := 256) (by norm_num)
  omega

theorem read_ids_length (n : Nat) :
    ∀ (last : Nat) (s ids s' : List Nat), read_ids n last s = some (ids, s') →
      ids.length = n ∧ ∀ v ∈ ids, v < 18446744073709551616 := by
  induction n with
  | zero =>
    intro last s ids s' h
    simp only [read_ids, Option.some.injEq, Prod.mk.injEq] at h
    simp [← h.1]
  | succ n ih =>
    intro last s ids s' h
    simp only [read_ids] at h
    rcases hv : varintDecode s with - | ⟨d, s1⟩ <;> rw [hv] at h
    · simp at h
    · rcases hr : read_ids n ((last + d) % 18446744073709551616) s1 with - | ⟨ids2, s2⟩ <;>
        simp only [hr] at h
      · simp at h
      · simp only [Option.some.injEq, Prod.mk.injEq] at h
        obtain ⟨hids, -⟩ := h
        obtain ⟨hlen, hbound⟩ := ih _ _ _ _ hr
        subst hids
        refine ⟨by simp [hlen], ?_⟩
        intro v hv2
        rcases List.mem_cons.mp hv2 with hv2 | hv2
        · subst hv2
          exact Nat.mod_lt _ (by norm_num)
        · exact hbound v hv2

theorem readSide_some_wf (lens : Option (Nat × Nat)) (s : List Nat)
    (oc : Option Change) (s' : List Nat) (h : readSide lens s = .ok (oc, s'))
    (c : Change) (hc : oc = some c) :
    ∃ al rl, lens = some (al, rl) ∧ c.addition_ids.length = al ∧
      c.removal_ids.length = rl ∧
      is_increasing c.addition_ids = true ∧ is_increasing c.removal_ids = true ∧
      (∀ v ∈ c.addition_ids, v < 18446744073709551616) ∧
      (∀ v ∈ c.removal_ids, v < 18446744073709551616) := by
  cases lens with
  | none =>
    simp only [readSide, Except.ok.injEq, Prod.mk.injEq] at h
    rw [← h.1] at hc
    simp at hc
  | some p =>
    obtain ⟨al, rl⟩ := p
    simp only [readSide] at h
    rcases h1 : read_ids al 0 s with - | ⟨adds, s1⟩
    · simp only [h1] at h
      simp at h
    · simp only [h1] at h
      rcases h2 : read_ids rl 0 s1 with - | ⟨rems, s2⟩
      · simp only [h2] at h
        simp at h
      · simp only [h2] at h
        by_cases hia : is_increasing adds
        · by_cases hir : is_increasing rems
          · simp only [hia, hir, Bool.not_true, Bool.false_eq_true, if_false,
              Except.ok.injEq, Prod.mk.injEq] at h
            rw [← h.1] at hc
            obtain ⟨hlen1, hb1⟩ := read_ids_length al 0 s adds s1 h1
            obtain ⟨hlen2, hb2⟩ := read_ids_length rl 0 s1 rems s2 h2
            cases hc
            exact ⟨al, rl, rfl, hlen1, hlen2, hia, hir, hb1, hb2⟩
          · simp [hia, hir] at h
        · simp [hia] at h

theorem validate_some_bounds (a b c d : Nat) (fl dl : Option (Nat × Nat))
    (h : validate_header_lengths a b c d = some (fl, dl)) :
    (∀ al rl, fl = some (al, rl) → al ≤ MAX_ENTRY_LEN ∧ rl ≤ MAX_ENTRY_LEN) ∧
    (∀ al rl, dl = some (al, rl) → al ≤ MAX_ENTRY_LEN ∧ rl ≤ MAX_ENTRY_LEN) := by
  simp only [validate_header_lengths] at h
  split at h
  · simp at h
  · simp only [Option.some.injEq, Prod.mk.injEq] at h
    obtain ⟨hfl, hdl⟩ := h
    constructor
    · intro al rl hflv
      rw [← hfl] at hflv
      split at hflv
      · simp at hflv
      · rename_i hcond
        simp only [Bool.or_eq_true, decide_eq_true_eq, not_or] at hcond
        simp only [Option.some.injEq, Prod.mk.injEq] at hflv
        obtain ⟨h1, h2⟩ := hflv
        subst h1
        subst h2
        omega
    · intro al rl hdlv
      rw [← hdl] at hdlv
      split at hdlv
      · simp at hdlv
      · rename_i hcond
        simp only [Bool.or_eq_true, decide_eq_true_eq, not_or] at hcond
        simp only [Option.some.injEq, Prod.mk.injEq] at hdlv
        obtain ⟨h1, h2⟩ := hdlv
        subst h1
        subst h2
        omega

theorem decodeBatch_wf (s : List Nat) (b : Batch) (r : List Nat)
    (h : decodeBatch s = .ok (some (b, r))) : wfBatch b := by
  unfold decodeBatch at h
  split at h
  case h_2 => simp at h
  case h_1 t1 t2 t3 t4 u1 u2 u3 u4 u5 u6 u7 u8 a1 a2 a3 a4 b1 b2 b3 b4 c1 c2 c3 c4 d1 d2 d3 d4 rest =>
    rcases hval : validate_header_lengths (ofBe4 a1 a2 a3 a4) (ofBe4 b1 b2 b3 b4)
        (ofBe4 c1 c2 c3 c4) (ofBe4 d1 d2 d3 d4) with - | ⟨fl, dl⟩
    · simp only [hval] at h
      simp at h
    · simp only [hval] at h
      rcases hrs1 : readSide fl rest with e1 | ⟨fc, s1⟩
      · simp only [hrs1] at h
        simp at h
      · simp only [hrs1] at h
        rcases hrs2 : readSide dl s1 with e2 | ⟨dc, s2⟩
        · simp only [hrs2] at h
          simp at h
        · simp only [hrs2] at h
          simp only [Except.ok.injEq, Option.some.injEq, Prod.mk.injEq] at h
          obtain ⟨hb, -⟩ := h
          subst hb
          obtain ⟨hbf, hbd⟩ := validate_some_bounds _ _ _ _ _ _ hval
          unfold wfBatch
          dsimp only
          refine ⟨by positivity, by exact_mod_cast ofBe4_lt t1 t2 t3 t4,
            ofBe8_lt _ _ _ _ _ _ _ _, ?_, ?_⟩
          · intro ch hch
            obtain ⟨al, rl, hfl, hl1, hl2, hi1, hi2, hv1, hv2⟩ :=
              readSide_some_wf fl rest fc s1 hrs1 ch hch
            obtain ⟨hm1, hm2⟩ := hbf al rl hfl
            exact ⟨hi1, hi2, hl1 ▸ hm1, hl2 ▸ hm2, hv1, hv2⟩
          · intro ch hch
            obtain ⟨al, rl, hdlx, hl1, hl2, hi1, hi2, hv1, hv2⟩ :=
              readSide_some_wf dl s1 dc s2 hrs2 ch hch
            obtain ⟨hm1, hm2⟩ := hbd al rl hdlx
            exact ⟨hi1, hi2, hl1 ▸ hm1, hl2 ▸ hm2, hv1, hv2⟩

theorem decodeAllAux_wf (fuel : Nat) :
    ∀ (s : List Nat) (bs : List Batch), decodeAllAux fuel s = .ok bs →
      ∀ b ∈ bs, wfBatch b := by
  induction fuel with
  | zero =>
    intro s bs h b hb
    simp only [decodeAllAux, Except.ok.injEq] at h
    rw [← h] at hb
    simp at hb
  | succ n ih =>
    intro s bs h b hb
    simp only [decodeAllAux] at h
    rcases hd : decodeBatch s with e | o
    · simp only [hd] at h
      simp at h
    · cases o with
      | none =>
        simp only [hd, Except.ok.injEq] at h
        rw [← h] at hb
        simp at hb
      | some p =>
        obtain ⟨b1, rest⟩ := p
        simp only [hd] at h
        rcases hr : decodeAllAux n rest with e | bs2
        · simp only [hr] at h
          simp at h
        · simp only [hr, Except.ok.injEq] at h
          rw [← h] at hb
          rcases List.mem_cons.mp hb with hb | hb
          · exact hb ▸ decodeBatch_wf s b1 rest hd
          · exact ih rest bs2 hr b hb

theorem encodeBatches_cons (b : Batch) (t : List Batch) :
    encodeBatches (b :: t) = encodeBatch b ++ encodeBatches t := by
  simp [encodeBatches]

theorem encodeBatch_length_pos (b : Batch) : 0 < (encodeBatch b).length := by
  simp [encodeBatch, toBe32, toBe64]

theorem encodeBatches_length_ge (l : List Batch) :
    l.length ≤ (encodeBatches l).length := by
  induction l with
  | nil => simp [encodeBatches]
  | cons b t ih =>
    rw [encodeBatches_cons]
    have := encodeBatch_length_pos b
    simp only [List.length_append, List.length_cons]
    omega

theorem decodeAllAux_encode (l : List Batch) :
    ∀ fuel, l.length < fuel →
      (∀ b ∈ l, wfBatch b ∧ (b.follower_change.isSome ∨ b.followed_change.isSome)) →
      decodeAllAux fuel (encodeBatches l) = .ok l := by
  induction l with
  | nil =>
    intro fuel hf _
    cases fuel with
    | zero => omega
    | succ n => rfl
  | cons b t ih =>
    intro fuel hf hwf
    cases fuel with
    | zero => omega
    | succ n =>
      have hb := hwf b (List.mem_cons_self b t)
      simp only [decodeAllAux, encodeBatches_cons]
      simp only [decodeBatch_encodeBatch b (encodeBatches t) hb.1 hb.2]
      simp only [ih n (by simp only [List.length_cons] at hf; omega)
        (fun x hx => hwf x (List.mem_cons_of_mem b hx))]

theorem decodeAll_encode (l : List Batch)
    (hwf : ∀ b ∈ l, wfBatch b ∧ (b.follower_change.isSome ∨ b.followed_change.isSome)) :
    decodeAll (encodeBatches l) = .ok l :=
  decodeAllAux_encode l _ (Nat.lt_succ_of_le (encodeBatches_length_ge l)) hwf

theorem mem_sortBatches {b : Batch} {l : List Batch} : b ∈ sortBatches l ↔ b ∈ l :=
  (List.perm_insertionSort _ l).mem_iff

/-- Claim C5, counterexample.  A store state whose current file holds a batch
dated day 0 while a past file for day 0 already exists: `archive()` fails
with `PastFileCollision` before mutating anything, so the state after the
first call is unchanged and the *second* of two consecutive calls fails with
`PastFileCollision` as well (this very equation), rather than returning
`None`.  Such a state is reachable through the public API, since
`update_and_write` accepts batches with past-dated timestamps. -/

theorem archive_collision_counterexample :
    Store.archive ⟨encodeBatch ⟨1000, 7, some ⟨[], []⟩, none⟩, [((0 : Int), ([] : List Nat))]⟩ 1 =
      .error (.pastFileCollision 0) := by rfl

/-- Claim C5, amended.  If one `archive()` call succeeds (returning `Ok`,
whether `None` or `Some n`), then — with no writes in between, on the same
day, and provided every record in the current file has at least one observed
side (a batch decoded through the oversized-length fallback can have both
sides `None` and would not re-encode) — the second call is a no-op: it
returns `None` and in particular never fails with `PastFileCollision`. -/

theorem archive_idempotent (fs : Fs) (today : Int) (fs₁ : Fs) (r : Option Nat)
    (h1 : Store.archive fs today = .ok (fs₁, r))
    (hside : ∀ bs, decodeAll fs.current = .ok bs →
      ∀ b ∈ bs, b.follower_change.isSome ∨ b.followed_change.isSome) :
    Store.archive fs₁ today = .ok (fs₁, none) := by
  unfold Store.archive at h1
  rcases hd : decodeAll fs.current with e | batches
  · simp only [hd] at h1
    simp at h1
  · simp only [hd] at h1
    by_cases hold : (batches.filter (fun b => !(batchDate b == today))).isEmpty = true
    · rw [if_pos hold] at h1
      simp only [Except.ok.injEq, Prod.mk.injEq] at h1
      obtain ⟨hfs, -⟩ := h1
      subst hfs
      unfold Store.archive
      simp only [hd]
      rw [if_pos hold]
    · rw [if_neg hold] at h1
      rcases hfind : List.find? (fun d => pastHas fs.past d)
          (sortedDates ((batches.filter (fun b => !(batchDate b == today))).map batchDate))
          with - | d
      · simp only [hfind] at h1
        simp only [Except.ok.injEq, Prod.mk.injEq] at h1
        obtain ⟨hfs, -⟩ := h1
        subst hfs
        have hdec : decodeAll
            (encodeBatches (sortBatches (batches.filter (fun b => batchDate b == today))))
            = .ok (sortBatches (batches.filter (fun b => batchDate b == today))) := by
          apply decodeAll_encode
          intro b hb
          have hbf := mem_sortBatches.mp hb
          have hbb := (List.mem_filter.mp hbf).1
          exact ⟨decodeAllAux_wf _ _ _ hd b hbb, hside batches hd b hbb⟩
        unfold Store.archive
        dsimp only
        simp only [hdec]
        have hemp : (sortBatches
            (batches.filter (fun b => batchDate b == today))).filter
              (fun b => !(batchDate b == today)) = [] := by
          rw [List.filter_eq_nil_iff]
          intro b hb
          have hbf := mem_sortBatches.mp hb
          have hc := (List.mem_filter.mp hbf).2
          simp [hc]
        rw [hemp]
        simp [List.isEmpty_nil]
      · simp only [hfind] at h1
        simp at h1

/-- Witness for `archive_idempotent`: after archiving a store whose current
file held one day-0 batch (on day 1), the second call returns `None` and
leaves the state alone. -/

theorem archive_idempotent_witness :
    Store.archive ⟨[], [((0 : Int), encodeBatch ⟨1000, 7, some ⟨[], []⟩, none⟩ ++ [])]⟩ 1 =
      .ok (⟨[], [((0 : Int), encodeBatch ⟨1000, 7, some ⟨[], []⟩, none⟩ ++ [])]⟩, none) := by
  apply archive_idempotent ⟨encodeBatch ⟨1000, 7, some ⟨[], []⟩, none⟩, []⟩ 1 _ (some 1)
  · rfl
  · intro bs h b hb
    have h2 : decodeAll (encodeBatch (⟨1000, 7, some ⟨[], []⟩, none⟩ : Batch))
        = .ok [⟨1000, 7, some ⟨[], []⟩, none⟩] := rfl
    have h3 := h2.symm.trans h
    injection h3 with h4
    rw [← h4] at hb
    simp only [List.mem_singleton] at hb
    subst hb
    exact Or.inl rfl

/-! ### Claim C6: scheduler monotonicity after `finish` -/

theorem except_bind_err {ε α β : Type} (e : ε) (f : α → Except ε β) :
    ((Except.error e : Except ε α) >>= f) = .error e := rfl

theorem except_pure {ε α : Type} (a : α) : (pure a : Except ε α) = .ok a := rfl

theorem dbPut_mem : ∀ (db : Db) (k v : List Nat) (kv : List Nat × List Nat),
    kv ∈ dbPut db k v → kv ∈ db ∨ kv = (k, v) := by
  intro db
  induction db with
  | nil =>
    intro k v kv h
    simp only [dbPut, List.mem_singleton] at h
    exact Or.inr h
  | cons hd rest ih =>
    intro k v kv h
    obtain ⟨k0, v0⟩ := hd
    simp only [dbPut] at h
    split at h
    · rcases List.mem_cons.mp h with h | h
      · exact Or.inr h
      · exact Or.inl (List.mem_cons_of_mem _ h)
    · split at h
      · rcases List.mem_cons.mp h with h | h
        · exact Or.inr h
        · exact Or.inl h
      · rcases List.mem_cons.mp h with h | h
        · exact Or.inl (h ▸ List.mem_cons_self _ _)
        · rcases ih k v kv h with h | h
          · exact Or.inl (List.mem_cons_of_mem _ h)
          · exact Or.inr h

theorem dbDelete_subset : ∀ (db : Db) (k : List Nat) (kv : List Nat × List Nat),
    kv ∈ dbDelete db k → kv ∈ db := by
  intro db
  induction db with
  | nil => intro k kv h; simp [dbDelete] at h
  | cons hd rest ih =>
    intro k kv h
    obtain ⟨k0, v0⟩ := hd
    simp only [dbDelete] at h
    split at h
    · exact List.mem_cons_of_mem _ h
    · rcases List.mem_cons.mp h with h | h
      · exact h ▸ List.mem_cons_self _ _
      · exact List.mem_cons_of_mem _ (ih k kv h)

theorem putPairs_mem (now2 : Int) :
    ∀ (pairs : List (List Nat × Nat × Option Int)) (db db' : Db),
      putPairs db pairs now2 = .ok db' →
      ∀ kv ∈ db', kv ∈ db ∨ ∃ p ∈ pairs, kv.1 = p.1 := by
  intro pairs
  induction pairs with
  | nil =>
    intro db db' h kv hkv
    simp only [putPairs, Except.ok.injEq] at h
    exact Or.inl (h ▸ hkv)
  | cons p rest ih =>
    intro db db' h kv hkv
    obtain ⟨k, i, last⟩ := p
    simp only [putPairs] at h
    rcases hv : age_value last (some now2) with e | v
    · rw [hv] at h
      simp [except_bind_err] at h
    · rw [hv, except_bind_ok] at h
      rcases ih _ _ h kv hkv with h2 | ⟨q, hq, hkq⟩
      · rcases dbPut_mem db k v kv h2 with h3 | h3
        · exact Or.inl h3
        · exact Or.inr ⟨(k, i, last), List.mem_cons_self _ _, by rw [h3]⟩
      · exact Or.inr ⟨q, List.mem_cons_of_mem _ hq, hkq⟩

theorem ageOnlyFor_spec {db : Db} {id : Nat} {k v : List Nat}
    (h : ageOnlyFor db id k v = true) {kv : List Nat × List Nat} (hkv : kv ∈ db)
    {nx : Option Int} {i : Nat} (hp : parse_age_key kv.1 = .ok (nx, i)) (hi : i = id) :
    kv.1 = k ∧ kv.2 = v := by
  have h2 := List.all_eq_true.mp h kv hkv
  rw [hp] at h2
  simp only [hi] at h2
  simp at h2
  exact h2

theorem ageOnlyFor_of {db : Db} {id : Nat} {k v : List Nat}
    (h : ∀ kv ∈ db, ∀ nx i, parse_age_key kv.1 = .ok (nx, i) → i = id →
      kv.1 = k ∧ kv.2 = v) : ageOnlyFor db id k v = true := by
  rw [ageOnlyFor, List.all_eq_true]
  intro kv hkv
  rcases hp : parse_age_key kv.1 with e | ⟨nx, i⟩
  · rfl
  · by_cases hi : i = id
    · obtain ⟨h1, h2⟩ := h kv hkv nx i hp hi
      simp [h1, h2]
    · simp [hi]

theorem noAgeFor_spec {db : Db} {id : Nat} (h : noAgeFor db id = true)
    {kv : List Nat × List Nat} (hkv : kv ∈ db) {nx : Option Int} {i : Nat}
    (hp : parse_age_key kv.1 = .ok (nx, i)) : i ≠ id := by
  have h2 := List.all_eq_true.mp h kv hkv
  rw [hp] at h2
  simpa using h2

theorem scanPairs_spec (now minAge minRunning : Int) :
    ∀ (entries : Db) (count : Nat) (out : List (List Nat × Nat × Option Int)),
      scanPairs now minAge minRunning entries count = .ok out →
      ∀ p ∈ out, ∃ vv nx st, (p.1, vv) ∈ entries ∧
        parse_age_key p.1 = .ok (nx, p.2.1) ∧
        parse_age_value vv = .ok (p.2.2, st) ∧
        (∀ l, p.2.2 = some l → minAge ≤ now - l) := by
  intro entries
  induction entries with
  | nil =>
    intro count out h p hp
    cases count with
    | zero =>
      simp only [scanPairs, Except.ok.injEq] at h
      rw [← h] at hp
      simp at hp
    | succ n =>
      simp only [scanPairs, Except.ok.injEq] at h
      rw [← h] at hp
      simp at hp
  | cons hd rest ih =>
    intro count out h p hp
    obtain ⟨k, v⟩ := hd
    cases count with
    | zero =>
      simp only [scanPairs, Except.ok.injEq] at h
      rw [← h] at hp
      simp at hp
    | succ n =>
      simp only [scanPairs] at h
      cases k with
      | nil =>
        simp only [Except.ok.injEq] at h
        rw [← h] at hp
        simp at hp
      | cons t krest =>
        dsimp only at h
        by_cases ht : t ≠ AGE_TAG
        · rw [if_pos ht] at h
          simp only [Except.ok.injEq] at h
          rw [← h] at hp
          simp at hp
        · rw [if_neg ht] at h
          rcases hpk : parse_age_key (t :: krest) with e | q
          · rw [hpk, except_bind_err] at h
            simp at h
          · obtain ⟨nx, idp⟩ := q
            rw [hpk, except_bind_ok] at h
            rcases hpv : parse_age_value v with e | q2
            · rw [hpv, except_bind_err] at h
              simp at h
            · obtain ⟨lastv, startedv⟩ := q2
              rw [hpv, except_bind_ok] at h
              dsimp only at h
              split at h
              · obtain ⟨vv, nx2, st, hmem, hrest⟩ := ih _ _ h p hp
                exact ⟨vv, nx2, st, List.mem_cons_of_mem _ hmem, hrest⟩
              · split at h
                · obtain ⟨vv, nx2, st, hmem, hrest⟩ := ih _ _ h p hp
                  exact ⟨vv, nx2, st, List.mem_cons_of_mem _ hmem, hrest⟩
                · rcases htail : scanPairs now minAge minRunning rest n with e | tail
                  · rw [htail, except_bind_err] at h
                    simp at h
                  · rw [htail, except_bind_ok, except_pure] at h
                    simp only [Except.ok.injEq] at h
                    rw [← h] at hp
                    rcases List.mem_cons.mp hp with hp | hp
                    · subst hp
                      refine ⟨v, nx, startedv, List.mem_cons_self _ _, hpk, hpv, ?_⟩
                      intro l hl
                      rename_i hskip1 hskip2
                      subst hl
                      simp only [decide_eq_true_eq] at hskip1
                      omega
                    · obtain ⟨vv, nx2, st, hmem, hrest⟩ := ih _ _ htail p hp
                      exact ⟨vv, nx2, st, List.mem_cons_of_mem _ hmem, hrest⟩

theorem getNext_not_id (db : Db) (id : Nat) (k v : List Nat) (T : Int)
    (count : Nat) (minAge minRunning now now2 : Int)
    (hparse : parse_age_value v = .ok (some T, none))
    (huniq : ageOnlyFor db id k v = true)
    (hnow : now < T + minAge)
    (db' : Db) (ids : List Nat)
    (hg : ProfileAgeDb.get_next db count minAge minRunning now now2 = .ok (db', ids)) :
    id ∉ ids ∧ ageOnlyFor db' id k v = true := by
  unfold ProfileAgeDb.get_next at hg
  rcases hs : scanPairs now minAge minRunning db count with e | pairs
  · rw [hs, except_bind_err] at hg
    simp at hg
  · rw [hs, except_bind_ok] at hg
    rcases hp : putPairs db pairs now2 with e | db2
    · rw [hp, except_bind_err] at hg
      simp at hg
    · rw [hp, except_bind_ok, except_pure] at hg
      simp only [Except.ok.injEq, Prod.mk.injEq] at hg
      obtain ⟨hdb, hids⟩ := hg
      have hpair : ∀ p ∈ pairs, p.2.1 ≠ id := by
        intro p hpm hpid
        obtain ⟨vv, nx, st, hmem, hpk, hpv, hcond⟩ :=
          scanPairs_spec now minAge minRunning db count pairs hs p hpm
        obtain ⟨hk1, hv1⟩ := ageOnlyFor_spec huniq hmem hpk hpid
        simp only at hk1 hv1
        rw [hv1, hparse] at hpv
        simp only [Except.ok.injEq, Prod.mk.injEq] at hpv
        have hge := hcond T (by rw [← hpv.1])
        omega
      constructor
      · intro hin
        rw [← hids] at hin
        obtain ⟨p, hpm, hpe⟩ := List.mem_map.mp hin
        exact hpair p hpm hpe
      · rw [← hdb]
        apply ageOnlyFor_of
        intro kv hkv nx i hpk2 hi
        rcases putPairs_mem now2 pairs db db2 hp kv hkv with hkv2 | ⟨p, hpmem, hkeq⟩
        · exact ageOnlyFor_spec huniq hkv2 hpk2 hi
        · exfalso
          obtain ⟨vv, nx3, st, hmem, hpk3, -, -⟩ :=
            scanPairs_spec now minAge minRunning db count pairs hs p hpmem
          rw [← hkeq, hpk2] at hpk3
          simp only [Except.ok.injEq, Prod.mk.injEq] at hpk3
          exact hpair p hpmem (hpk3.2 ▸ hi)

theorem runGetNexts_not_id (id : Nat) (k v : List Nat) (T : Int)
    (hparse : parse_age_value v = .ok (some T, none)) :
    ∀ (calls : List GNCall) (db : Db), ageOnlyFor db id k v = true →
      (∀ c ∈ calls, c.now < T + c.min_age) →
      ∀ ids ∈ (runGetNexts db calls).2, id ∉ ids := by
  intro calls
  induction calls with
  | nil =>
    intro db h hc ids hids
    simp [runGetNexts] at hids
  | cons c cs ih =>
    intro db h hc ids hids
    simp only [runGetNexts] at hids
    rcases hg : ProfileAgeDb.get_next db c.count c.min_age c.min_running c.now c.now2
        with e | p
    · rw [hg] at hids
      exact ih db h (fun c' hc' => hc c' (List.mem_cons_of_mem _ hc')) ids hids
    · obtain ⟨db1, ids1⟩ := p
      rw [hg] at hids
      dsimp only at hids
      rcases hr : runGetNexts db1 cs with ⟨dbf, rest⟩
      rw [hr] at hids
      dsimp only at hids
      obtain ⟨hnotid, hpres⟩ := getNext_not_id db id k v T c.count c.min_age c.min_running
        c.now c.now2 hparse h (hc c (List.mem_cons_self _ _)) db1 ids1 hg
      rcases List.mem_cons.mp hids with hids | hids
      · subst hids
        exact hnotid
      · have hih := ih db1 hpres (fun c' hc' => hc c' (List.mem_cons_of_mem _ hc')) ids
        apply hih
        rw [hr]
        exact hids

theorem parse_id_value_bounds (value : List Nat) (curNext : Option Int) (ta : Int)
    (h : parse_id_value value = .ok (curNext, ta)) : 0 ≤ ta ∧ ta < 4294967296 := by
  unfold parse_id_value at h
  split at h
  · simp only [Except.ok.injEq, Prod.mk.injEq] at h
    rename_i a1 a2 a3 a4 b1 b2 b3 b4
    have := ofBe4_lt b1 b2 b3 b4
    rw [← h.2]
    constructor
    · positivity
    · exact_mod_cast this
  · simp at h

theorem parse_age_value_toBe32 (T : Int) (h0 : 0 < T) (h32 : T < 4294967296) :
    parse_age_value (toBe32 T.toNat) = .ok (some T, none) := by
  simp only [toBe32, parse_age_value]
  rw [ofBe4_of_lt _ (by omega)]
  unfold timestamp_from_u32
  rw [if_neg (by omega)]
  simp only [Except.ok.injEq, Prod.mk.injEq, Option.some.injEq]
  exact ⟨by omega, trivial⟩

theorem finish_sets_record (db : Db) (id : Nat) (dta T : Int) (value : List Nat)
    (curNext : Option Int) (ta : Int) (oldKey : List Nat)
    (hT : 0 < T) (hTta : T + ta < 4294967296)
    (hget : dbGet db (id_key id) = some value)
    (hpv : parse_id_value value = .ok (curNext, ta))
    (hok : age_key curNext id = .ok oldKey)
    (hclean : noAgeFor (dbDelete db oldKey) id = true) :
    ProfileAgeDb.finish db id dta T =
      .ok (dbPut (dbPut (dbDelete db oldKey)
          (AGE_TAG :: (toBe32 (T + ta).toNat ++ toBe64 id)) (toBe32 T.toNat))
        (id_key id) (toBe32 (T + ta).toNat ++ toBe32 ta.toNat), true) ∧
    ageOnlyFor (dbPut (dbPut (dbDelete db oldKey)
        (AGE_TAG :: (toBe32 (T + ta).toNat ++ toBe64 id)) (toBe32 T.toNat))
      (id_key id) (toBe32 (T + ta).toNat ++ toBe32 ta.toNat)) id
      (AGE_TAG :: (toBe32 (T + ta).toNat ++ toBe64 id)) (toBe32 T.toNat) = true := by
  have hta := parse_id_value_bounds value curNext ta hpv
  have hk2 : age_key (some (T + ta)) id
      = .ok (AGE_TAG :: (toBe32 (T + ta).toNat ++ toBe64 id)) := by
    unfold age_key timestamp_to_u32
    dsimp only
    rw [if_pos (⟨by omega, hTta⟩ : 0 ≤ T + ta ∧ T + ta < 4294967296)]
    rfl
  have hv2 : age_value (some T) none = .ok (toBe32 T.toNat) := by
    unfold age_value timestamp_to_u32
    dsimp only
    rw [if_pos (⟨by omega, by omega⟩ : 0 ≤ T ∧ T < 4294967296)]
    rfl
  have hiv2 : id_value (some (T + ta)) ta
      = .ok (toBe32 (T + ta).toNat ++ toBe32 ta.toNat) := by
    unfold id_value timestamp_to_u32
    rw [if_pos (⟨by omega, by omega⟩ : 0 ≤ ta ∧ ta < 4294967296)]
    dsimp only
    rw [if_pos (⟨by omega, hTta⟩ : 0 ≤ T + ta ∧ T + ta < 4294967296)]
    rfl
  constructor
  · simp only [ProfileAgeDb.finish, hget, hpv, hok, hk2, hv2, hiv2,
      except_bind_ok, except_pure]
  · apply ageOnlyFor_of
    intro kv hkv nx i hpk hi
    rcases dbPut_mem _ _ _ kv hkv with h2 | h2
    · rcases dbPut_mem _ _ _ kv h2 with h3 | h3
      · exact absurd hi (noAgeFor_spec hclean h3 hpk)
      · rw [h3]
        exact ⟨rfl, rfl⟩
    · exfalso
      have hpe : parse_age_key kv.1 = .error (.unexpectedTag ID_TAG) := by
        rw [h2]
        rfl
      rw [hpe] at hpk
      simp at hpk

/-- Claim C6.  After `finish(id, _)` completes at time `T` (the id being
scheduled: its by-id record exists and its single priority record is the one
it names), no subsequent sequence of `get_next(count, min_age, min_running)`
calls returns `id` while each call's `now` is earlier than `T + min_age` —
the stored `last = T` makes every such call skip the record (and leave it
untouched, so the exclusion survives across calls). -/

theorem finish_then_get_next_excludes (db : Db) (id : Nat) (dta T : Int)
    (value : List Nat) (curNext : Option Int) (ta : Int) (oldKey : List Nat)
    (calls : List GNCall)
    (hT : 0 < T) (hTta : T + ta < 4294967296)
    (hget : dbGet db (id_key id) = some value)
    (hpv : parse_id_value value = .ok (curNext, ta))
    (hok : age_key curNext id = .ok oldKey)
    (hclean : noAgeFor (dbDelete db oldKey) id = true)
    (hcalls : ∀ c ∈ calls, c.now < T + c.min_age) :
    ∃ db₁, ProfileAgeDb.finish db id dta T = .ok (db₁, true) ∧
      ∀ ids ∈ (runGetNexts db₁ calls).2, id ∉ ids := by
  obtain ⟨hfin, hage⟩ :=
    finish_sets_record db id dta T value curNext ta oldKey hT hTta hget hpv hok hclean
  have hta := parse_id_value_bounds value curNext ta hpv
  refine ⟨_, hfin, ?_⟩
  exact runGetNexts_not_id id _ _ T (parse_age_value_toBe32 T hT (by omega)) calls _ hage hcalls

/-- Witness for `finish_then_get_next_excludes`: id 5 scheduled with
`next_due = 300`, `last = 200`, `target_age = 100`; `finish` at `T = 400`
reschedules it to 500, and a `get_next` at time 450 with `min_age = 200`
(450 < 400 + 200) does not return 5. -/

theorem finish_then_get_next_excludes_witness :
    ProfileAgeDb.finish
      [(AGE_TAG :: (toBe32 300 ++ toBe64 5), toBe32 200),
       (ID_TAG :: toBe64 5, toBe32 300 ++ toBe32 100)] 5 50 400 =
      .ok ([(AGE_TAG :: (toBe32 500 ++ toBe64 5), toBe32 400),
            (ID_TAG :: toBe64 5, toBe32 500 ++ toBe32 100)], true) ∧
    5 ∉ ((runGetNexts
      [(AGE_TAG :: (toBe32 500 ++ toBe64 5), toBe32 400),
       (ID_TAG :: toBe64 5, toBe32 500 ++ toBe32 100)] [⟨10, 200, 0, 450, 460⟩]).2).flatten := by
  obtain ⟨db₁, hfin, hex⟩ := finish_then_get_next_excludes
    [(AGE_TAG :: (toBe32 300 ++ toBe64 5), toBe32 200),
     (ID_TAG :: toBe64 5, toBe32 300 ++ toBe32 100)] 5 50 400
    (toBe32 300 ++ toBe32 100) (some 300) 100
    (AGE_TAG :: (toBe32 300 ++ toBe64 5)) [⟨10, 200, 0, 450, 460⟩]
    (by norm_num) (by norm_num) rfl rfl rfl rfl
    (by
      intro c hc
      simp only [List.mem_singleton] at hc
      subst hc
      norm_num)
  have hlit : ProfileAgeDb.finish
      [(AGE_TAG :: (toBe32 300 ++ toBe64 5), toBe32 200),
       (ID_TAG :: toBe64 5, toBe32 300 ++ toBe32 100)] 5 50 400 =
      .ok ([(AGE_TAG :: (toBe32 500 ++ toBe64 5), toBe32 400),
            (ID_TAG :: toBe64 5, toBe32 500 ++ toBe32 100)], true) := by rfl
  have hdb : db₁ = [(AGE_TAG :: (toBe32 500 ++ toBe64 5), toBe32 400),
      (ID_TAG :: toBe64 5, toBe32 500 ++ toBe32 100)] := by
    have h2 := hfin.symm.trans hlit
    simp only [Except.ok.injEq, Prod.mk.injEq] at h2
    exact h2.1
  subst hdb
  refine ⟨hlit, ?_⟩
  intro hmem
  obtain ⟨l, hl, hl5⟩ := List.mem_flatten.mp hmem
  exact hex l hl hl5

end HST
